import Mathlib

/-!
Verification of the kit version-control engine's diff and merge core.

The definitions below are shallow embeddings of the Go sources:
* the line differ (`diffContent`, `longestCommonSubsequence`, `convertToEdits`,
  `groupEditsIntoChunks`) from the diff file of the repository,
* the merge engine (`Merge`, `FindMergeBase`, `MergeTrees`, `MergeFiles`)
  from pkg/repo/merge.go,
* the object model and reference store from pkg/repo/repository.go.

Go slices of lines become `List String`; Go `int` indices that can hold the
sentinel -1 become `Int`; Go maps become association lists looked up with
`List.lookup`.  Filesystem reads/writes are modelled by explicit state values;
a read error or a JSON decoding error is modelled as `none`/`Except.error`.
-/

namespace Kit

/-- Go `strings.Split(content, "\n")` followed by the "remove trailing empty
line" step that `diffContent` and `MergeFiles` both perform:
`if len(lines) > 0 && lines[len(lines)-1] == "" { lines = lines[:len(lines)-1] }`. -/
def trimTrailingEmpty (ls : List String) : List String :=
  if 0 < ls.length ∧ ls.getLast? = some "" then ls.dropLast else ls

/-- Go `strings.Split(s, "\n")` on the character list: split at every newline,
yielding one more piece than there are newlines (the empty string yields
`[""]`, like the Go function). -/
def splitCharsOnNl : List Char → List (List Char)
  | [] => [[]]
  | ch :: rest =>
    let r := splitCharsOnNl rest
    if ch = '\n' then [] :: r
    else (ch :: r.headI) :: r.tail

/-- Go `strings.Split(s, "\n")`. -/
def splitNl (s : String) : List String :=
  (splitCharsOnNl s.data).map fun cs => String.mk cs

/-- Split a content string into lines exactly as the Go diff code does. -/
def strLines (s : String) : List String :=
  trimTrailingEmpty (splitNl s)

/-- The dynamic-programming LCS length table `dp[i][j]` of
`longestCommonSubsequence`.  The Go code fills an (m+1)×(n+1) matrix with
`dp[i][j] = dp[i-1][j-1]+1` when `a[i-1] == b[j-1]` and
`max(dp[i-1][j], dp[i][j-1])` otherwise.  The `fuel` argument makes the
recursion structural; it is called with `fuel = i + j`, which always suffices,
so the fuel-exhausted branch is unreachable. -/
def lcsLenGo (a b : List String) : Nat → Nat → Nat → Nat
  | _, 0, _ => 0
  | _, _+1, 0 => 0
  | 0, _+1, _+1 => 0
  | f+1, i+1, j+1 =>
    if a.getD i "" = b.getD j "" then lcsLenGo a b f i j + 1
    else max (lcsLenGo a b f i (j+1)) (lcsLenGo a b f (i+1) j)

/-- `dp[i][j]` of the Go LCS matrix. -/
def lcsLen (a b : List String) (i j : Nat) : Nat :=
  lcsLenGo a b (i + j) i j

/-- The backtrace loop of `longestCommonSubsequence`: starting from `(m, n)`,
walk the dp matrix; on `a[i-1] == b[j-1]` prepend the pair `(i-1, j-1)` and
step diagonally, otherwise step towards the larger of `dp[i-1][j]` and
`dp[i][j-1]` (ties go to `j--`, matching the Go `else` branch).  Prepending
while walking down is realized by appending in the recursive formulation.
`fuel` is called with `i + j` and always suffices. -/
def lcsBacktrackGo (a b : List String) : Nat → Nat → Nat → List (Nat × Nat)
  | _, 0, _ => []
  | _, _+1, 0 => []
  | 0, _+1, _+1 => []
  | f+1, i+1, j+1 =>
    if a.getD i "" = b.getD j "" then lcsBacktrackGo a b f i j ++ [(i, j)]
    else if lcsLen a b i (j+1) > lcsLen a b (i+1) j then lcsBacktrackGo a b f i (j+1)
    else lcsBacktrackGo a b f (i+1) j

/-- `longestCommonSubsequence(a, b)`: the list of index pairs of the LCS. -/
def longestCommonSubsequence (a b : List String) : List (Nat × Nat) :=
  lcsBacktrackGo a b (a.length + b.length) a.length b.length

/-- The `Edit.Type` strings `"insert"`, `"delete"`, `"unchanged"`. -/
inductive EditType
  | ins
  | del
  | unch
deriving DecidableEq

/-- The Go `Edit` struct: an edit operation of the edit script.  `OldIndex`
and `NewIndex` use the sentinel `-1` exactly as the source does. -/
structure Edit where
  type : EditType
  oldIndex : Int
  newIndex : Int
  lineValue : String
deriving DecidableEq

instance : Inhabited Edit := ⟨⟨EditType.unch, -1, -1, ""⟩⟩

/-- Membership test of the pair `(i, j)` in the Go `lcsMap` (a nested map
holding exactly the pairs of the LCS list). -/
def lcsHas (pairs : List (Nat × Nat)) (i j : Nat) : Bool :=
  pairs.contains (i, j)

/-- The loop of `convertToEdits`, walking `oldIdx`/`newIdx` over both line
arrays.  The three branches mirror the Go conditions verbatim.  `fuel` is
initially `a.length + b.length` and the loop consumes old/new indices, so the
fuel never runs out; the two `[]` fallbacks are unreachable (in Go the final
branch of the loop is exhaustive, see the proof `convGo_editsOK`). -/
def convGo (a b : List String) (pairs : List (Nat × Nat)) : Nat → Nat → Nat → List Edit
  | 0, _, _ => []
  | f+1, p, q =>
    if p < a.length ∨ q < b.length then
      if p < a.length ∧ q < b.length ∧ lcsHas pairs p q = true then
        ⟨EditType.unch, (p : Int), (q : Int), a.getD p ""⟩ :: convGo a b pairs f (p+1) (q+1)
      else if p < a.length ∧ (b.length ≤ q ∨
          (p+1 < a.length ∧ q < b.length ∧ lcsHas pairs (p+1) q = true)) then
        ⟨EditType.del, (p : Int), -1, a.getD p ""⟩ :: convGo a b pairs f (p+1) q
      else if q < b.length then
        ⟨EditType.ins, -1, (q : Int), b.getD q ""⟩ :: convGo a b pairs f p (q+1)
      else []
    else []

/-- `convertToEdits(oldLines, newLines, lcs)`. -/
def convertToEdits (a b : List String) (pairs : List (Nat × Nat)) : List Edit :=
  convGo a b pairs (a.length + b.length) 0 0

/-- The Go `DiffChunk` struct (a hunk).  Start fields use `-1` as the
"not yet set" placeholder like the source. -/
structure DiffChunk where
  oldStart : Int
  oldLength : Int
  newStart : Int
  newLength : Int
  lines : List String
deriving DecidableEq

/-- The freshly initialized `currentChunk` of `groupEditsIntoChunks`. -/
def emptyChunk : DiffChunk := ⟨-1, 0, -1, 0, []⟩

/-- The `isNearChange` scan of `groupEditsIntoChunks`: is there a non-unchanged
edit at an index `j ≠ i` with `max(0, i-c) ≤ j < min(len, i+c+1)`? -/
def isNearChange (edits : List Edit) (c i : Nat) : Bool :=
  (List.range edits.length).any fun j =>
    decide (i - c ≤ j) && decide (j < i + c + 1) && decide (j ≠ i) &&
      decide ((edits.getD j default).type ≠ EditType.unch)

/-- The "starting a new chunk" update of `groupEditsIntoChunks`: when
`currentChunk.OldStart` is still `-1`, record the 1-based start positions
from the edit (or `0` for a `-1` index). -/
def chunkStart (cur : DiffChunk) (e : Edit) : DiffChunk :=
  if cur.oldStart = -1 then
    { cur with
      oldStart := if e.oldIndex ≠ -1 then e.oldIndex + 1 else 0,
      newStart := if e.newIndex ≠ -1 then e.newIndex + 1 else 0 }
  else cur

/-- The "add line to chunk" switch of `groupEditsIntoChunks`: prefix the line
with `+`/`-`/space and bump the respective lengths. -/
def chunkAdd (cur1 : DiffChunk) (e : Edit) : DiffChunk :=
  match e.type with
  | EditType.ins =>
      { cur1 with
        newLength := cur1.newLength + 1
        lines := cur1.lines ++ ["+" ++ e.lineValue] }
  | EditType.del =>
      { cur1 with
        oldLength := cur1.oldLength + 1
        lines := cur1.lines ++ ["-" ++ e.lineValue] }
  | EditType.unch =>
      { cur1 with
        oldLength := cur1.oldLength + 1
        newLength := cur1.newLength + 1
        lines := cur1.lines ++ [" " ++ e.lineValue] }

/-- The loop body of `groupEditsIntoChunks`.  The first argument is the suffix
`edits.drop i` still to process (making the recursion structural); `i` is the
Go loop index into the full `edits` list. -/
def groupGo (edits : List Edit) (c : Nat) :
    List Edit → Nat → DiffChunk → List DiffChunk → List DiffChunk
  | [], _, cur, acc => if cur.lines ≠ [] then acc ++ [cur] else acc
  | e :: rest, i, cur, acc =>
    if e.type ≠ EditType.unch ∨ i = 0 ∨ i = edits.length - 1 ∨ isNearChange edits c i = true then
      groupGo edits c rest (i+1) (chunkAdd (chunkStart cur e) e) acc
    else if cur.lines ≠ [] then
      groupGo edits c rest (i+1) emptyChunk (acc ++ [cur])
    else
      groupGo edits c rest (i+1) cur acc

/-- `groupEditsIntoChunks(oldLines, newLines, edits, contextLines)` (the two
line arrays are unused by the Go function body apart from the edits). -/
def groupEditsIntoChunks (edits : List Edit) (c : Nat) : List DiffChunk :=
  if edits = [] then [] else groupGo edits c edits 0 emptyChunk []

/-- `diffContent(oldContent, newContent, contextLines)`: split into lines,
run the LCS, convert to an edit script, group into hunks. -/
def diffContent (oldContent newContent : String) (contextLines : Nat) : List DiffChunk :=
  let oldLines := strLines oldContent
  let newLines := strLines newContent
  let lcs := longestCommonSubsequence oldLines newLines
  let edits := convertToEdits oldLines newLines lcs
  groupEditsIntoChunks edits contextLines

/-! ## Object model (pkg/repo/repository.go) -/

/-- The Go `TreeEntry` struct. -/
structure TreeEntry where
  path : String
  mode : String
  type : String
  objID : String
deriving DecidableEq

/-- The Go `TreeObject` struct; its `Entries map[string]TreeEntry` is modelled
as an association list looked up with `List.lookup` (first binding wins, like
a map whose inserts shadow). -/
structure TreeObject where
  entries : List (String × TreeEntry)
deriving DecidableEq

/-- The Go `CommitObject` struct.  `time.Time` is modelled as a `Nat`. -/
structure CommitObject where
  tree : String
  parent : String
  parent2 : String
  author : String
  committer : String
  message : String
  timestamp : Nat
deriving DecidableEq

/-- A stored object: the byte content of an object file, already classified
by kind.  Go stores raw bytes and re-parses them; reading an id as the wrong
kind (or a JSON decoding failure) is modelled as a failed read. -/
inductive Obj
  | blob (content : String)
  | tree (t : TreeObject)
  | commit (c : CommitObject)
deriving DecidableEq

/-- `sort.Strings`-style sorted key list used by Go's `encoding/json` when
marshalling a map: `json.Marshal` emits map entries in sorted key order. -/
def sortedStrings (l : List String) : List String :=
  l.insertionSort (· ≤ ·)

/-- Concatenate with a separator (Go `strings.Join`). -/
def joinWith (sep : String) : List String → String
  | [] => ""
  | [x] => x
  | x :: xs => x ++ sep ++ joinWith sep xs

/-- The canonical JSON rendering of a `TreeEntry` value (field order is the
struct declaration order, as `encoding/json` does for structs). -/
def renderEntry (e : TreeEntry) : String :=
  "\x7b\"path\": \"" ++ e.path ++ "\", \"mode\": \"" ++ e.mode ++
    "\", \"type\": \"" ++ e.type ++ "\", \"obj_id\": \"" ++ e.objID ++ "\"\x7d"

/-- The canonical serialization of a tree that `Commit`/`Merge` hash to form
the tree id: `json.MarshalIndent(tree, ...)` emits the `entries` map with its
keys in sorted order, each with its entry value.  (Whitespace details of
MarshalIndent are irrelevant to the identity claims and elided.) -/
def serializeTree (t : TreeObject) : String :=
  "\x7b\"entries\": \x7b" ++
    joinWith ", " ((sortedStrings (t.entries.map Prod.fst)).map fun k =>
      "\"" ++ k ++ "\": " ++ renderEntry ((t.entries.lookup k).getD ⟨"", "", "", ""⟩)) ++
    "\x7d\x7d"

/-- The canonical serialization of a commit (struct fields in declaration
order, as `encoding/json` renders a struct). -/
def serializeCommit (c : CommitObject) : String :=
  "\x7b\"tree\": \"" ++ c.tree ++ "\", \"parent\": \"" ++ c.parent ++
    "\", \"parent2\": \"" ++ c.parent2 ++ "\", \"author\": \"" ++ c.author ++
    "\", \"committer\": \"" ++ c.committer ++ "\", \"message\": \"" ++ c.message ++
    "\", \"timestamp\": " ++ toString c.timestamp ++ "\x7d"

/-- The raw byte content of a stored object file. -/
def rawBytes : Obj → String
  | Obj.blob s => s
  | Obj.tree t => serializeTree t
  | Obj.commit c => serializeCommit c

/-- `readObject` followed by use of the raw bytes as file content. -/
def readRaw (objects : List (String × Obj)) (id : String) : Option String :=
  (objects.lookup id).map rawBytes

/-- `readObject` + `json.Unmarshal` into a `CommitObject`.  A missing object
or a non-commit object is a failed read (Go: read error, or a decode that
does not yield a meaningful commit). -/
def readCommitObj (objects : List (String × Obj)) (id : String) : Option CommitObject :=
  match objects.lookup id with
  | some (Obj.commit c) => some c
  | _ => none

/-- `readObject` + `json.Unmarshal` into a `TreeObject`. -/
def readTreeObj (objects : List (String × Obj)) (id : String) : Option TreeObject :=
  match objects.lookup id with
  | some (Obj.tree t) => some t
  | _ => none

/-- `storeObject(objID, content)`: write the object file for `objID`
(creating or replacing it).  The cons shadows any previous binding, which is
lookup-equivalent to overwriting. -/
def storeObject (objects : List (String × Obj)) (id : String) (o : Obj) :
    List (String × Obj) :=
  (id, o) :: objects

/-- `getTreeFromCommit`: read the commit object, then its tree. -/
def getTreeFromCommit (objects : List (String × Obj)) (commitID : String) :
    Except String TreeObject :=
  match readCommitObj objects commitID with
  | none => Except.error "failed to read commit"
  | some c =>
    match readTreeObj objects c.tree with
    | none => Except.error "failed to read tree"
    | some t => Except.ok t

/-! ## String helpers mirroring the Go standard library calls -/

/-- Go `s[:n]` on bytes (our contents are ASCII in every claim). -/
def strTake (s : String) (n : Nat) : String := String.mk (s.data.take n)

/-- Go `s[n:]`. -/
def strDrop (s : String) (n : Nat) : String := String.mk (s.data.drop n)

/-- Whitespace as trimmed by `strings.TrimSpace` (ASCII subset). -/
def isSpaceChar (c : Char) : Bool :=
  c = ' ' || c = '\n' || c = '\t' || c = '\r'

/-- Go `strings.TrimSpace`. -/
def strTrim (s : String) : String :=
  String.mk (((s.data.dropWhile isSpaceChar).reverse.dropWhile isSpaceChar).reverse)

/-- Go `strings.HasPrefix`. -/
def hasPrefixStr (s p : String) : Bool :=
  p.data.isPrefixOf s.data

/-- Go `filepath.Ext`: the suffix beginning at the final dot of the final
path element, empty when there is no dot. -/
def pathExt (s : String) : String :=
  let base := (s.data.reverse.takeWhile (· ≠ '/')).reverse
  if base.contains '.' then
    String.mk ('.' :: (base.reverse.takeWhile (· ≠ '.')).reverse)
  else ""

/-- `isCodeFile(path)`: membership of the lower-cased extension in the fixed
extension set of the source. -/
def isCodeFile (path : String) : Bool :=
  let ext := String.mk ((pathExt path).data.map Char.toLower)
  [".go", ".js", ".ts", ".jsx", ".tsx", ".py", ".java", ".c", ".cpp", ".h",
    ".cs", ".rb", ".php", ".rs", ".swift", ".kt"].contains ext

/-! ## Reference store (repository.go `resolveReference`/`updateReference`) -/

/-- The reference files of the `.kit` directory, keyed by their path relative
to `.kit` (`"HEAD"`, `"refs/heads/<name>"`, ...); the value is the file
content. -/
def RefFiles := List (String × String)

/-- Write a reference file (create or replace; the cons shadows the old
binding, lookup-equivalently to overwriting the file). -/
def setFile (files : List (String × String)) (k v : String) : List (String × String) :=
  (k, v) :: files

/-- `resolveReference(ref)`: for `"HEAD"`, read the HEAD file and follow at
most one level of `ref:` indirection, returning the target file's trimmed
content (the non-symbolic HEAD content is returned untrimmed, as in Go);
for any other name, read that file directly and trim.  A missing file is the
only error.  Note: there is no cycle detection and no recursion. -/
def resolveReference (files : List (String × String)) (ref : String) :
    Except String String :=
  if ref = "HEAD" then
    match files.lookup "HEAD" with
    | none => Except.error "failed to read HEAD"
    | some content =>
      if 4 < content.length ∧ strTake content 4 = "ref:" then
        match files.lookup (strTrim (strDrop content 4)) with
        | none => Except.error "failed to read symbolic target"
        | some d => Except.ok (strTrim d)
      else Except.ok content
  else
    match files.lookup ref with
    | none => Except.error "failed to read reference"
    | some d => Except.ok (strTrim d)

/-- `updateReference(ref, commitID)`: for `"HEAD"` holding a `ref:` line the
write goes to the target file (the engine never creates a HEAD whose target
is again symbolic, so one unfolding is faithful); otherwise write `ref`. -/
def updateReference (files : List (String × String)) (ref id : String) :
    List (String × String) :=
  if ref = "HEAD" then
    match files.lookup "HEAD" with
    | some content =>
      if 4 < content.length ∧ strTake content 4 = "ref:" then
        setFile files (strTrim (strDrop content 4)) id
      else setFile files "HEAD" id
    | none => setFile files "HEAD" id
  else setFile files ref id

/-! ## Merge-base computation (merge.go `FindMergeBase`) -/

/-- The first loop of `FindMergeBase`: breadth-first collect the history of
`a`, following only the `Parent` field (the source never enqueues
`Parent2`).  Unreadable commits are skipped.  The `fuel` bounds the number of
loop iterations; `2*|objects|+1` always suffices (each iteration either pops
an already-visited id or newly visits one, and only store keys enqueue a
parent), and exhaustion returns `none` so that a forced result is never
fabricated. -/
def collectHistoryGo (objects : List (String × Obj)) :
    Nat → List String → List String → Option (List String)
  | _, [], hist => some hist
  | 0, _ :: _, _ => none
  | f+1, c :: queue, hist =>
    if hist.contains c then collectHistoryGo objects f queue hist
    else
      let hist1 := c :: hist
      match readCommitObj objects c with
      | none => collectHistoryGo objects f queue hist1
      | some co =>
        if co.parent ≠ "" then collectHistoryGo objects f (queue ++ [co.parent]) hist1
        else collectHistoryGo objects f queue hist1

/-- The second loop of `FindMergeBase`: traverse from `b` (again following
only `Parent`), returning the first commit already in `a`'s history; an
exhausted queue yields the Go error. -/
def findFirstCommonGo (objects : List (String × Obj)) (histA : List String) :
    Nat → List String → List String → Option (Except String String)
  | _, [], _ => some (Except.error "no common ancestor found")
  | 0, _ :: _, _ => none
  | f+1, c :: queue, visited =>
    if visited.contains c then findFirstCommonGo objects histA f queue visited
    else
      let visited1 := c :: visited
      if histA.contains c then some (Except.ok c)
      else
        match readCommitObj objects c with
        | none => findFirstCommonGo objects histA f queue visited1
        | some co =>
          if co.parent ≠ "" then findFirstCommonGo objects histA f (queue ++ [co.parent]) visited1
          else findFirstCommonGo objects histA f queue visited1

/-- `FindMergeBase(commitA, commitB)`.  `none` only on fuel exhaustion, which
cannot happen at the supplied bound (a modelling artifact never hit by the
terminating Go loops). -/
def findMergeBase (objects : List (String × Obj)) (a b : String) :
    Option (Except String String) :=
  (collectHistoryGo objects (2 * objects.length + 1) [a] []).bind fun histA =>
    findFirstCommonGo objects histA (2 * objects.length + 1) [b] []

/-! ## Three-way file content merge (merge.go `MergeFiles`) -/

/-- The Go `MergeStrategy` enum. -/
inductive MergeStrategy
  | auto
  | ours
  | theirs
  | manual
deriving DecidableEq

/-- The Go `MergeConflict` struct (field order as declared). -/
structure MergeConflict where
  path : String
  ourContent : String
  theirContent : String
  baseContent : String
  resolution : String
deriving DecidableEq

/-- The Go `MergeResult` struct. -/
structure MergeResult where
  success : Bool
  fastForward : Bool
  conflicts : List MergeConflict
  mergedCommit : String
deriving DecidableEq

/-- The Go `MergeOptions` struct. -/
structure MergeOptions where
  strategy : MergeStrategy
  noCommit : Bool
  message : String
  useSemantic : Bool

/-- First inner loop of `MergeFiles`' first pass: the first index `j` with
`!theirProcessed[j]` whose line equals `ourLine`. -/
def firstUnprocessedMatch (theirLines : List String) (proc : List Bool)
    (line : String) : Option Nat :=
  (List.range theirLines.length).find? fun j =>
    proc.getD j false = false && theirLines.getD j "" = line

/-- Lookup in the Go `baseMap` (`map[line]index` built by ascending index, so
a duplicate line keeps its **last** index). -/
def baseMapLookup (baseLines : List String) (line : String) : Option Nat :=
  (List.range baseLines.length).reverse.find? fun i => baseLines.getD i "" = line

/-- The "find closest match in their changes" scan: the first `j` over
`theirProcessed` that is unprocessed, in range, and within `baseIdx ± 1`
(Go `int` arithmetic, hence the `Int` comparisons). -/
def closestUnprocessed (proc : List Bool) (theirLen baseIdx : Nat) : Option Nat :=
  (List.range proc.length).find? fun j =>
    proc.getD j false = false && decide (j < theirLen) &&
      decide ((baseIdx : Int) - 1 ≤ (j : Int)) && decide ((j : Int) ≤ (baseIdx : Int) + 1)

/-- Mutable state of `MergeFiles`' first pass.  (`ourProcessed[i]` is only
ever written at the loop's own index and read before that write, so it is
dead and not modelled.) -/
structure MFState where
  theirProcessed : List Bool
  resultLines : List String
  hasConflict : Bool

/-- One iteration of the first pass of `MergeFiles` for `ourLine`. -/
def mergeFilesStep (baseLines theirLines : List String) (st : MFState)
    (ourLine : String) : MFState :=
  match firstUnprocessedMatch theirLines st.theirProcessed ourLine with
  | some j =>
    { st with
      resultLines := st.resultLines ++ [ourLine]
      theirProcessed := st.theirProcessed.set j true }
  | none =>
    match baseMapLookup baseLines ourLine with
    | some baseIdx =>
      match closestUnprocessed st.theirProcessed theirLines.length baseIdx with
      | some tj =>
        if theirLines.getD tj "" ≠ baseLines.getD baseIdx "" then
          { st with hasConflict := true }
        else
          { st with resultLines := st.resultLines ++ [ourLine] }
      | none => { st with resultLines := st.resultLines ++ [ourLine] }
    | none => { st with resultLines := st.resultLines ++ [ourLine] }

/-- `MergeFiles(baseContent, ourContent, theirContent, strategy)`: the greedy
line-oriented three-way merge.  Returns `(content, hasConflict)`; the Go
`error` return is always `nil`. -/
def mergeFiles (baseContent ourContent theirContent : String)
    (strategy : MergeStrategy) : String × Bool :=
  let baseLines := strLines baseContent
  let ourLines := strLines ourContent
  let theirLines := strLines theirContent
  let st0 : MFState := ⟨List.replicate theirLines.length false, [], false⟩
  let st1 := ourLines.foldl (mergeFilesStep baseLines theirLines) st0
  let rest := (List.range theirLines.length).filterMap fun j =>
    if st1.theirProcessed.getD j false then none else some (theirLines.getD j "")
  let resultLines := st1.resultLines ++ rest
  if st1.hasConflict then
    if strategy = MergeStrategy.ours then (ourContent, false)
    else if strategy = MergeStrategy.theirs then (theirContent, false)
    else
      ("<<<<<<< OURS\n" ++ ourContent ++ "\n=======\n" ++ theirContent ++
        "\n>>>>>>> THEIRS\n", true)
  else (joinWith "\n" resultLines, false)

/-! ## Three-way tree merge (merge.go `MergeTrees`) -/

/-- Environment of the merge engine: the content hashes (SHA-256 over the
canonical bytes, abstracted to functions into the id space), the semantic
file merge (`SemanticMergeFiles`, whose floating-point similarity kernel is
an external collaborator and therefore a parameter), and the commit
timestamp (`time.Now()`). -/
structure MergeCtx where
  hashBlob : String → String
  hashTree : TreeObject → String
  hashCommit : CommitObject → String
  semMerge : String → String → String → Except String (String × Bool)
  now : Nat

/-- Lookup of a path in a tree's entry map. -/
def lookupEntry (t : TreeObject) (p : String) : Option TreeEntry :=
  t.entries.lookup p

/-- Processing of one path inside the `MergeTrees` loop.  Returns the
(possibly grown) object store, the entry for the merged tree (if any), and
the conflict recorded for this path (if any), or the Go error. -/
def mergePath (ctx : MergeCtx) (opts : MergeOptions) (objects : List (String × Obj))
    (baseT ourT theirT : TreeObject) (path : String) :
    Except String (List (String × Obj) × Option TreeEntry × Option MergeConflict) :=
  match lookupEntry baseT path, lookupEntry ourT path, lookupEntry theirT path with
  | some baseEntry, some ourEntry, some theirEntry =>
    -- Case 1: present in base, ours, theirs
    if baseEntry.objID = ourEntry.objID ∧ baseEntry.objID ≠ theirEntry.objID then
      Except.ok (objects, some theirEntry, none)
    else if baseEntry.objID = theirEntry.objID ∧ baseEntry.objID ≠ ourEntry.objID then
      Except.ok (objects, some ourEntry, none)
    else if ourEntry.objID = theirEntry.objID then
      Except.ok (objects, some ourEntry, none)
    else
      match readRaw objects baseEntry.objID, readRaw objects ourEntry.objID,
          readRaw objects theirEntry.objID with
      | some baseContent, some ourContent, some theirContent =>
        match (if opts.useSemantic ∧ isCodeFile path then
            ctx.semMerge baseContent ourContent theirContent
          else
            Except.ok (mergeFiles baseContent ourContent theirContent opts.strategy)) with
        | Except.error e => Except.error e
        | Except.ok mc =>
          let conflictRec : Option MergeConflict :=
            if mc.2 then some ⟨path, ourContent, theirContent, baseContent, ""⟩ else none
          let resolved : String × Bool :=
            if mc.2 then
              if opts.strategy = MergeStrategy.ours then (ourContent, false)
              else if opts.strategy = MergeStrategy.theirs then (theirContent, false)
              else mc
            else mc
          if resolved.2 then Except.ok (objects, none, conflictRec)
          else
            let contentID := ctx.hashBlob resolved.1
            Except.ok (storeObject objects contentID (Obj.blob resolved.1),
              some ⟨path, "100644", "blob", contentID⟩, conflictRec)
      | _, _, _ => Except.error "failed to read content"
  | none, some ourEntry, some theirEntry =>
    -- Case 2: added in both ours and theirs
    if ourEntry.objID = theirEntry.objID then
      Except.ok (objects, some ourEntry, none)
    else
      match readRaw objects ourEntry.objID, readRaw objects theirEntry.objID with
      | some ourContent, some theirContent =>
        if opts.useSemantic ∧ isCodeFile path then
          match ctx.semMerge "" ourContent theirContent with
          | Except.error e => Except.error e
          | Except.ok mc =>
            if mc.2 then
              Except.ok (objects, none, some ⟨path, ourContent, theirContent, "", ""⟩)
            else
              let contentID := ctx.hashBlob mc.1
              Except.ok (storeObject objects contentID (Obj.blob mc.1),
                some ⟨path, "100644", "blob", contentID⟩, none)
        else
          -- without a base: always a conflict unless the strategy picks a side
          if opts.strategy = MergeStrategy.ours then
            let contentID := ctx.hashBlob ourContent
            Except.ok (storeObject objects contentID (Obj.blob ourContent),
              some ⟨path, "100644", "blob", contentID⟩, none)
          else if opts.strategy = MergeStrategy.theirs then
            let contentID := ctx.hashBlob theirContent
            Except.ok (storeObject objects contentID (Obj.blob theirContent),
              some ⟨path, "100644", "blob", contentID⟩, none)
          else
            Except.ok (objects, none, some ⟨path, ourContent, theirContent, "", ""⟩)
      | _, _ => Except.error "failed to read content"
  | some _, some ourEntry, none =>
    -- Case 3: deleted in theirs, kept in ours: keep ours, no conflict
    Except.ok (objects, some ourEntry, none)
  | some _, none, some theirEntry =>
    -- Case 4: deleted in ours, kept in theirs: keep theirs, no conflict
    Except.ok (objects, some theirEntry, none)
  | none, some ourEntry, none =>
    -- Case 5: added in ours only
    Except.ok (objects, some ourEntry, none)
  | none, none, some theirEntry =>
    -- Case 6: added in theirs only
    Except.ok (objects, some theirEntry, none)
  | _, none, none =>
    -- deleted on both sides / only in base: omit from the merged tree
    Except.ok (objects, none, none)

/-- The union of the three trees' paths.  Go iterates a `map[string]bool` in
unspecified order; the model fixes the first-occurrence order (the per-path
results are order-independent, only the conflict list's order is not, and no
claim depends on it). -/
def allPaths (b o t : TreeObject) : List String :=
  ((b.entries.map Prod.fst) ++ (o.entries.map Prod.fst) ++ (t.entries.map Prod.fst)).dedup

/-- The path loop of `MergeTrees`. -/
def mergeTreesGo (ctx : MergeCtx) (opts : MergeOptions) (baseT ourT theirT : TreeObject) :
    List String → List (String × Obj) → List (String × TreeEntry) → List MergeConflict →
    Except String (List (String × Obj) × TreeObject × List MergeConflict)
  | [], objects, entries, conflicts => Except.ok (objects, ⟨entries⟩, conflicts)
  | p :: ps, objects, entries, conflicts =>
    match mergePath ctx opts objects baseT ourT theirT p with
    | Except.error e => Except.error e
    | Except.ok (objects1, entryOpt, confOpt) =>
      mergeTreesGo ctx opts baseT ourT theirT ps objects1
        (entries ++ (entryOpt.map fun e => (p, e)).toList)
        (conflicts ++ confOpt.toList)

/-- `MergeTrees(baseTree, ourTree, theirTree, options)`. -/
def mergeTrees (ctx : MergeCtx) (opts : MergeOptions) (objects : List (String × Obj))
    (baseT ourT theirT : TreeObject) :
    Except String (List (String × Obj) × TreeObject × List MergeConflict) :=
  mergeTreesGo ctx opts baseT ourT theirT (allPaths baseT ourT theirT) objects [] []

/-! ## Repository state and orchestration (repository.go / branch.go / merge.go) -/

/-- The repository model: the `.kit` reference files, the object store, and
the in-memory `RepositoryState` (`HEAD`, `Stage`, `Tracked`).  The working
tree and the persisted index are filesystem collaborators outside the core
and are not modelled (`SaveIndex` and file materialization always succeed in
the model; the loops that perform them are kept where they can fail by a
missing object read). -/
structure RepoModel where
  files : List (String × String)
  objects : List (String × Obj)
  head : String
  stage : List (String × String)
  tracked : List (String × String)

/-- `GetCurrentBranch()`: parse `.kit/HEAD`. -/
def getCurrentBranch (m : RepoModel) : Except String String :=
  match m.files.lookup "HEAD" with
  | none => Except.error "failed to read HEAD file"
  | some content =>
    if hasPrefixStr content "ref: refs/heads/" then
      let branchRef := strTrim (strDrop content 5)
      if hasPrefixStr branchRef "refs/heads/" then Except.ok (strDrop branchRef 11)
      else Except.error "HEAD does not point to a branch"
    else Except.error "HEAD is detached"

/-- Update an association list at a key (later write wins on lookup). -/
def setAssoc (l : List (String × String)) (k v : String) : List (String × String) :=
  (k, v) :: l

/-- `CheckoutBranch(name)`: the state-updating part.  Reads the branch ref,
the commit, its tree and every entry's object (a missing one aborts), resets
`Tracked` to the tree, clears the stage and repoints HEAD.  Working-tree file
writes are filesystem effects outside the model. -/
def checkoutBranch (m : RepoModel) (name : String) : Except String RepoModel :=
  match m.files.lookup ("refs/heads/" ++ name) with
  | none => Except.error "branch does not exist"
  | some _ =>
    if m.stage ≠ [] then Except.error "you have uncommitted changes"
    else
      match resolveReference m.files ("refs/heads/" ++ name) with
      | Except.error _ => Except.error "failed to resolve branch reference"
      | Except.ok targetCommitID =>
        match readCommitObj m.objects targetCommitID with
        | none => Except.error "failed to read commit object"
        | some commit =>
          match readTreeObj m.objects commit.tree with
          | none => Except.error "failed to read tree object"
          | some tree =>
            if tree.entries.all (fun kv => (m.objects.lookup kv.2.objID).isSome) then
              Except.ok
                { m with
                  tracked := tree.entries.map fun kv => (kv.1, kv.2.objID)
                  stage := []
                  files := setFile m.files "HEAD" ("ref: refs/heads/" ++ name ++ "\n")
                  head := "refs/heads/" ++ name }
            else Except.error "failed to read object"

/-- The tree object that `Commit` builds from the staging area. -/
def treeFromStage (stage : List (String × String)) : TreeObject :=
  ⟨stage.map fun kv => (kv.1, ⟨kv.1, "100644", "blob", kv.2⟩)⟩

/-- `Commit(message)`: build a tree from the stage, store it, resolve the
parent from `State.HEAD` (a missing reference file leaves the parent empty,
as `os.IsNotExist` does in Go), store the commit, advance the reference,
fold the stage into `Tracked`, clear the stage. -/
def commitRepo (ctx : MergeCtx) (m : RepoModel) (message : String) :
    Except String (RepoModel × String) :=
  if m.stage = [] then Except.error "nothing to commit, working tree clean"
  else
    let tree := treeFromStage m.stage
    let treeID := ctx.hashTree tree
    let objects1 := storeObject m.objects treeID (Obj.tree tree)
    let parentID := match resolveReference m.files m.head with
      | Except.ok pid => pid
      | Except.error _ => ""
    let commitObj : CommitObject :=
      ⟨treeID, parentID, "", "Kit User <kit@example.com>", "Kit User <kit@example.com>",
        message, ctx.now⟩
    let commitID := ctx.hashCommit commitObj
    let objects2 := storeObject objects1 commitID (Obj.commit commitObj)
    Except.ok
      ({ m with
          objects := objects2
          files := updateReference m.files m.head commitID
          stage := []
          tracked := m.stage.foldl (fun t kv => setAssoc t kv.1 kv.2) m.tracked },
        commitID)

/-- The commit value built by `CreateMergeCommit(message, parent1, parent2, treeID)`. -/
def mergeCommitObj (ctx : MergeCtx) (message parent1 parent2 treeID : String) :
    CommitObject :=
  ⟨treeID, parent1, parent2, "Kit User <kit@example.com>", "Kit User <kit@example.com>",
    message, ctx.now⟩

/-- `Merge(branchName, options)`.  Mirrors the control flow of merge.go:
resolve both branches, refuse a dirty stage, find the merge base,
fast-forward when the base equals our tip, otherwise three-way merge; on a
Manual-strategy conflict stop (conflict markers go to the working tree);
otherwise (unless NoCommit) store the merged tree, create the two-parent
commit, advance the branch; finally the tracked/working-tree update loop
reads every merged entry (a missing object aborts). -/
def merge (ctx : MergeCtx) (m : RepoModel) (branchName : String) (opts : MergeOptions) :
    Except String (RepoModel × MergeResult) :=
  match getCurrentBranch m with
  | Except.error e => Except.error ("failed to get current branch: " ++ e)
  | Except.ok currentBranch =>
  match resolveReference m.files ("refs/heads/" ++ currentBranch) with
  | Except.error e => Except.error ("failed to resolve current branch: " ++ e)
  | Except.ok currentCommitID =>
  match resolveReference m.files ("refs/heads/" ++ branchName) with
  | Except.error e => Except.error ("failed to resolve target branch: " ++ e)
  | Except.ok targetCommitID =>
  if m.stage ≠ [] then Except.error "cannot merge with uncommitted changes"
  else
  match findMergeBase m.objects currentCommitID targetCommitID with
  | none => Except.error "merge-base fuel exhausted"
  | some (Except.error e) => Except.error ("failed to find merge base: " ++ e)
  | some (Except.ok baseCommitID) =>
  if baseCommitID = currentCommitID then
    -- fast-forward: move the reference, refresh the working state; no object
    -- is created
    let m1 := { m with files := updateReference m.files ("refs/heads/" ++ currentBranch) targetCommitID }
    match checkoutBranch m1 currentBranch with
    | Except.error e => Except.error ("failed to update working tree after merge: " ++ e)
    | Except.ok m2 => Except.ok (m2, ⟨true, true, [], targetCommitID⟩)
  else
  match getTreeFromCommit m.objects baseCommitID with
  | Except.error e => Except.error ("failed to get base tree: " ++ e)
  | Except.ok baseTree =>
  match getTreeFromCommit m.objects currentCommitID with
  | Except.error e => Except.error ("failed to get our tree: " ++ e)
  | Except.ok ourTree =>
  match getTreeFromCommit m.objects targetCommitID with
  | Except.error e => Except.error ("failed to get their tree: " ++ e)
  | Except.ok theirTree =>
  match mergeTrees ctx opts m.objects baseTree ourTree theirTree with
  | Except.error e => Except.error ("failed to merge trees: " ++ e)
  | Except.ok (objects1, mergedTree, conflicts) =>
  if conflicts ≠ [] ∧ opts.strategy = MergeStrategy.manual then
    -- WriteConflictMarkers writes only working-tree files
    Except.ok ({ m with objects := objects1 }, ⟨false, false, conflicts, ""⟩)
  else
  let committed : List (String × Obj) × List (String × String) × String :=
    if ¬opts.noCommit then
      let treeID := ctx.hashTree mergedTree
      let objects2 := storeObject objects1 treeID (Obj.tree mergedTree)
      let message := if opts.message = "" then
          "Merge branch '" ++ branchName ++ "' into " ++ currentBranch
        else opts.message
      let commitObj := mergeCommitObj ctx message currentCommitID targetCommitID treeID
      let commitID := ctx.hashCommit commitObj
      let objects3 := storeObject objects2 commitID (Obj.commit commitObj)
      (objects3, updateReference m.files ("refs/heads/" ++ currentBranch) commitID, commitID)
    else (objects1, m.files, "")
  -- update tracked files and working tree from the merged tree (each entry's
  -- object is read back; a missing one aborts)
  if mergedTree.entries.all (fun kv => (committed.1.lookup kv.2.objID).isSome) then
    Except.ok
      ({ m with
          objects := committed.1
          files := committed.2.1
          tracked := mergedTree.entries.foldl (fun t kv => setAssoc t kv.1 kv.2.objID) m.tracked },
        ⟨true, false, conflicts, committed.2.2⟩)
  else Except.error "failed to read object"

/-! ## Auxiliary notions used by the theorems -/

/-- Reachability along first-parent edges only: the ancestors that
`FindMergeBase`'s traversals can ever visit. -/
inductive FPAncestor (objects : List (String × Obj)) : String → String → Prop
  | refl (a : String) : FPAncestor objects a a
  | step {a c : String} {co : CommitObject} :
      FPAncestor objects a c → readCommitObj objects c = some co → co.parent ≠ "" →
      FPAncestor objects a co.parent

/-- Well-formedness of trees as the engine constructs them (`Commit` and
`MergeTrees` always set `Path` to the map key, mode `100644`, type `blob`,
and a Go map has no duplicate keys). -/
def WFTree (t : TreeObject) : Prop :=
  (t.entries.map Prod.fst).Nodup ∧
    ∀ kv ∈ t.entries, kv.2.path = kv.1 ∧ kv.2.mode = "100644" ∧ kv.2.type = "blob"

/-- `Ext ctx base cur`: the store `cur` agrees with `base` on every id outside
the range of `ctx.hashBlob` — the only ids `MergeTrees` ever writes. -/
def Ext (ctx : MergeCtx) (base cur : List (String × Obj)) : Prop :=
  ∀ k, (∀ s, k ≠ ctx.hashBlob s) → cur.lookup k = base.lookup k

/-! ### Concrete repositories used by counterexamples and witnesses -/

/-- A store with a merge commit `m` whose second parent `p2` is a root
disjoint from the first-parent history: `p2` is an ancestor of `m` via
`parent2` only. -/
def parent2Store : List (String × Obj) :=
  [("m", Obj.commit ⟨"t", "p1", "p2", "", "", "", 0⟩),
   ("p1", Obj.commit ⟨"t", "", "", "", "", "", 0⟩),
   ("p2", Obj.commit ⟨"t", "", "", "", "", "", 0⟩)]

/-- A two-commit first-parent chain `m → p1`. -/
def chainStore : List (String × Obj) :=
  [("m", Obj.commit ⟨"t", "p1", "", "", "", "", 0⟩),
   ("p1", Obj.commit ⟨"t", "", "", "", "", "", 0⟩)]

/-- Reference files whose HEAD is a symbolic reference to itself: a cycle. -/
def cyclicRefFiles : List (String × String) := [("HEAD", "ref: HEAD\n")]

/-- Two tree objects with the same path→id mapping inserted in opposite
orders. -/
def demoTreeA : TreeObject :=
  ⟨[("a.txt", ⟨"a.txt", "100644", "blob", "id1"⟩),
    ("b.txt", ⟨"b.txt", "100644", "blob", "id2"⟩)]⟩

/-- `demoTreeA` with the opposite insertion order. -/
def demoTreeB : TreeObject :=
  ⟨[("b.txt", ⟨"b.txt", "100644", "blob", "id2"⟩),
    ("a.txt", ⟨"a.txt", "100644", "blob", "id1"⟩)]⟩

/-- A concrete merge environment for witnesses: injective-enough toy hashes
(`hashBlob` prefixes `#`, so it never collides with the short ids used in the
demo stores). -/
def demoCtx : MergeCtx :=
  ⟨fun s => "#" ++ s, fun _ => "TM", fun _ => "CM", fun _ _ _ => Except.ok ("", true), 7⟩

/-- A repository whose `main` is at root commit `c1` and whose `feature` is
one commit ahead at `c2`: the fast-forward situation. -/
def ffObjects : List (String × Obj) :=
  [("c1", Obj.commit ⟨"t1", "", "", "", "", "", 0⟩),
   ("c2", Obj.commit ⟨"t2", "c1", "", "", "", "", 0⟩),
   ("t1", Obj.tree ⟨[]⟩),
   ("t2", Obj.tree ⟨[]⟩)]

/-- Reference files of the fast-forward scenario. -/
def ffFiles : List (String × String) :=
  [("HEAD", "ref: refs/heads/main\n"),
   ("refs/heads/main", "c1"),
   ("refs/heads/feature", "c2")]

/-- The repository model of the fast-forward scenario. -/
def ffModel : RepoModel :=
  ⟨ffFiles, ffObjects, "refs/heads/main", [], []⟩

/-- Merge options: Auto strategy, commit enabled, no semantic kernel. -/
def plainAutoOpts : MergeOptions := ⟨MergeStrategy.auto, false, "", false⟩

/-- Blobs and trees of a true three-way conflict at `f.txt`: base `a\nb`,
ours `a\nc`, theirs `d\nb` (the greedy `MergeFiles` reports a conflict). -/
def conflictObjects : List (String × Obj) :=
  [("B0", Obj.blob "a\nb"),
   ("B1", Obj.blob "a\nc"),
   ("B2", Obj.blob "d\nb"),
   ("T0", Obj.tree ⟨[("f.txt", ⟨"f.txt", "100644", "blob", "B0"⟩)]⟩),
   ("T1", Obj.tree ⟨[("f.txt", ⟨"f.txt", "100644", "blob", "B1"⟩)]⟩),
   ("T2", Obj.tree ⟨[("f.txt", ⟨"f.txt", "100644", "blob", "B2"⟩)]⟩),
   ("c0", Obj.commit ⟨"T0", "", "", "", "", "", 0⟩),
   ("c1", Obj.commit ⟨"T1", "c0", "", "", "", "", 0⟩),
   ("c2", Obj.commit ⟨"T2", "c0", "", "", "", "", 0⟩)]

/-- Reference files of the conflict scenario. -/
def conflictFiles : List (String × String) :=
  [("HEAD", "ref: refs/heads/main\n"),
   ("refs/heads/main", "c1"),
   ("refs/heads/feat", "c2")]

/-- The repository model of the conflict scenario. -/
def conflictModel : RepoModel :=
  ⟨conflictFiles, conflictObjects, "refs/heads/main", [], []⟩

/-- Trees for the "added on both sides with different contents" scenario:
base empty, ours/theirs each add `f.txt` with different blobs. -/
def addedBaseTree : TreeObject := ⟨[]⟩

/-- Ours adds `f.txt` as blob `A1`. -/
def addedOurTree : TreeObject := ⟨[("f.txt", ⟨"f.txt", "100644", "blob", "A1"⟩)]⟩

/-- Theirs adds `f.txt` as blob `A2`. -/
def addedTheirTree : TreeObject := ⟨[("f.txt", ⟨"f.txt", "100644", "blob", "A2"⟩)]⟩

/-- Blobs for the added-both scenario: ours `a`, theirs `b`. -/
def addedObjects : List (String × Obj) :=
  [("A1", Obj.blob "a"), ("A2", Obj.blob "b")]

/-- Deletion scenario: base has `f.txt` at blob `B0`. -/
def delBaseTree : TreeObject := ⟨[("f.txt", ⟨"f.txt", "100644", "blob", "B0"⟩)]⟩

/-- Deletion scenario: ours modified `f.txt` to blob `B1`. -/
def delOurTree : TreeObject := ⟨[("f.txt", ⟨"f.txt", "100644", "blob", "B1"⟩)]⟩

/-- Deletion scenario: theirs deleted `f.txt`. -/
def delTheirTree : TreeObject := ⟨[]⟩

/-- The merge result of the deletion scenario: ours kept, no conflict. -/
def delMergeRes : List (String × Obj) × TreeObject × List MergeConflict :=
  ([], ⟨[("f.txt", ⟨"f.txt", "100644", "blob", "B1"⟩)]⟩, [])

/-! ### Patch application (for the diff round-trip law)

The repository contains no patch-application function, so "applying all hunks
of `diff(A, B)` to `A`" is modelled from the spec: hunks are applied in
order, each at its recorded 1-based `OldStart`; the old lines between hunks
are copied unchanged; inside a hunk a `+` line is emitted, a `-` line
consumes one old line, and a context line (` `) is emitted and consumes one
old line — conventional unified-diff semantics (spec §4.5). -/

/-- The lines a hunk contributes to the new file: payloads of `+` and
context lines. -/
def chunkOutput (lines : List String) : List String :=
  lines.filterMap fun l => if strTake l 1 = "-" then none else some (strDrop l 1)

/-- How many old lines a hunk consumes: its `-` and context lines. -/
def chunkOldCount (lines : List String) : Nat :=
  (lines.filter fun l => strTake l 1 ≠ "+").length

/-- Modelled from the spec: sequential application of hunks to the old line
array, starting from old position `pos` (0-based). -/
def applyChunks (old : List String) : Nat → List DiffChunk → List String
  | pos, [] => old.drop pos
  | pos, ch :: cs =>
    let s := (ch.oldStart - 1).toNat
    (old.take s).drop pos ++ chunkOutput ch.lines ++
      applyChunks old (s + chunkOldCount ch.lines) cs

/-- Validity of an edit script produced by `convertToEdits` against the two
line arrays, starting at old position `p` and new position `q`: unchanged
edits carry equal lines of both sides, deletes consume old lines, inserts
consume new lines, and the script ends exactly when both arrays are
exhausted. -/
inductive EditsOK (a b : List String) : List Edit → Nat → Nat → Prop
  | nil : EditsOK a b [] a.length b.length
  | unch {es : List Edit} {p q : Nat} :
      p < a.length → q < b.length → a.getD p "" = b.getD q "" →
      EditsOK a b es (p+1) (q+1) →
      EditsOK a b (⟨EditType.unch, (p : Int), (q : Int), a.getD p ""⟩ :: es) p q
  | del {es : List Edit} {p q : Nat} :
      p < a.length → q ≤ b.length → EditsOK a b es (p+1) q →
      EditsOK a b (⟨EditType.del, (p : Int), -1, a.getD p ""⟩ :: es) p q
  | ins {es : List Edit} {p q : Nat} :
      p ≤ a.length → q < b.length → EditsOK a b es p (q+1) →
      EditsOK a b (⟨EditType.ins, -1, (q : Int), b.getD q ""⟩ :: es) p q

/-! ## Helper lemmas -/

theorem lookup_isSome_iff {β : Type} (l : List (String × β)) (a : String) :
    (l.lookup a).isSome = true ↔ a ∈ l.map Prod.fst := by
  induction l with
  | nil => simp
  | cons kv t ih =>
    obtain ⟨k, v⟩ := kv
    cases h : (a == k) with
    | true =>
      have hk : a = k := by simpa using h
      subst hk
      simp [List.lookup_cons]
    | false =>
      have hne : ¬a = k := by simpa using h
      simp [List.lookup_cons, h, ih, hne]

theorem lookup_mem {β : Type} {l : List (String × β)} {a : String} {b : β}
    (h : l.lookup a = some b) : (a, b) ∈ l := by
  induction l with
  | nil => simp [List.lookup] at h
  | cons kv t ih =>
    obtain ⟨k, v⟩ := kv
    cases hk : (a == k) with
    | true =>
      have hk2 : a = k := by simpa using hk
      subst hk2
      simp [List.lookup_cons] at h
      simp [h]
    | false =>
      simp [List.lookup_cons, hk] at h
      exact List.mem_cons_of_mem _ (ih h)

theorem lookup_map_pair_isSome {β γ : Type} (l : List (String × β))
    (g : String × β → γ) (p : String) :
    ((l.map fun kv => (kv.1, g kv)).lookup p).isSome = (l.lookup p).isSome := by
  induction l with
  | nil => rfl
  | cons kv t ih =>
    obtain ⟨k, v⟩ := kv
    cases h : (p == k) with
    | true => simp [List.lookup_cons, h]
    | false => simpa [List.lookup_cons, h] using ih

/-! ## C1: merge-base computation and the parent2 edge -/

theorem collectHistory_sound (objects : List (String × Obj)) (a : String) :
    ∀ (f : Nat) (queue hist : List String),
      (∀ q ∈ queue, FPAncestor objects a q) → (∀ x ∈ hist, FPAncestor objects a x) →
      ∀ res, collectHistoryGo objects f queue hist = some res →
        ∀ x ∈ res, FPAncestor objects a x := by
  intro f
  induction f with
  | zero =>
    intro queue hist hq hh res hres x hx
    cases queue with
    | nil =>
      simp only [collectHistoryGo] at hres
      cases hres; exact hh x hx
    | cons c q => simp [collectHistoryGo] at hres
  | succ f ih =>
    intro queue hist hq hh res hres x hx
    cases queue with
    | nil =>
      simp only [collectHistoryGo] at hres
      cases hres; exact hh x hx
    | cons c q =>
      have hc : FPAncestor objects a c := hq c (by simp)
      have hq' : ∀ y ∈ q, FPAncestor objects a y := fun y hy => hq y (by simp [hy])
      simp only [collectHistoryGo] at hres
      by_cases hvis : hist.contains c
      · rw [if_pos hvis] at hres
        exact ih q hist hq' hh res hres x hx
      · rw [if_neg hvis] at hres
        have hh' : ∀ y ∈ c :: hist, FPAncestor objects a y := by
          intro y hy
          rcases List.mem_cons.mp hy with h | h
          · subst h; exact hc
          · exact hh y h
        cases hro : readCommitObj objects c with
        | none =>
          simp only [hro] at hres
          exact ih q (c :: hist) hq' hh' res hres x hx
        | some co =>
          simp only [hro] at hres
          by_cases hp : co.parent ≠ ""
          · rw [if_pos hp] at hres
            have hq2 : ∀ y ∈ q ++ [co.parent], FPAncestor objects a y := by
              intro y hy
              rcases List.mem_append.mp hy with h | h
              · exact hq' y h
              · simp at h; subst h
                exact FPAncestor.step hc hro hp
            exact ih _ _ hq2 hh' res hres x hx
          · rw [if_neg hp] at hres
            exact ih q (c :: hist) hq' hh' res hres x hx

theorem findFirstCommon_sound (objects : List (String × Obj)) (histA : List String)
    (b : String) :
    ∀ (f : Nat) (queue visited : List String),
      (∀ q ∈ queue, FPAncestor objects b q) →
      ∀ c, findFirstCommonGo objects histA f queue visited = some (Except.ok c) →
        FPAncestor objects b c ∧ c ∈ histA := by
  intro f
  induction f with
  | zero =>
    intro queue visited hq c hres
    cases queue with
    | nil => simp [findFirstCommonGo] at hres
    | cons x q => simp [findFirstCommonGo] at hres
  | succ f ih =>
    intro queue visited hq c hres
    cases queue with
    | nil => simp [findFirstCommonGo] at hres
    | cons x q =>
      have hx : FPAncestor objects b x := hq x (by simp)
      have hq' : ∀ y ∈ q, FPAncestor objects b y := fun y hy => hq y (by simp [hy])
      simp only [findFirstCommonGo] at hres
      by_cases hvis : visited.contains x
      · rw [if_pos hvis] at hres
        exact ih q visited hq' c hres
      · rw [if_neg hvis] at hres
        by_cases hmem : histA.contains x
        · rw [if_pos hmem] at hres
          cases hres
          exact ⟨hx, by simpa using hmem⟩
        · rw [if_neg hmem] at hres
          cases hro : readCommitObj objects x with
          | none =>
            simp only [hro] at hres
            exact ih q _ hq' c hres
          | some co =>
            simp only [hro] at hres
            by_cases hp : co.parent ≠ ""
            · rw [if_pos hp] at hres
              have hq2 : ∀ y ∈ q ++ [co.parent], FPAncestor objects b y := by
                intro y hy
                rcases List.mem_append.mp hy with h | h
                · exact hq' y h
                · simp at h; subst h
                  exact FPAncestor.step hx hro hp
              exact ih _ _ hq2 c hres
            · rw [if_neg hp] at hres
              exact ih q _ hq' c hres

/-- C1 counterexample: in `parent2Store`, `p2` is an ancestor of `m` reachable
only through the `parent2` edge of the merge commit `m`; the claim says
`mergeBase(m, p2)` follows `parent2` and returns `p2`, but `FindMergeBase`
never follows `parent2` and reports "no common ancestor found". -/
theorem findMergeBase_ignores_parent2 :
    findMergeBase parent2Store "m" "p2" =
      some (Except.error "no common ancestor found") := rfl

/-- C1 (amended): `FindMergeBase` collects the ancestors of `a` and traverses
from `b` breadth-first following **only the first-parent edge** (`parent2` is
never followed); any commit it returns is reachable from both inputs along
first-parent edges alone. -/
theorem findMergeBase_first_parent_sound (objects : List (String × Obj))
    (a b c : String) (h : findMergeBase objects a b = some (Except.ok c)) :
    FPAncestor objects a c ∧ FPAncestor objects b c := by
  unfold findMergeBase at h
  cases hA : collectHistoryGo objects (2 * objects.length + 1) [a] [] with
  | none => rw [hA, Option.none_bind] at h; simp at h
  | some histA =>
    rw [hA, Option.some_bind] at h
    have hsubA : ∀ x ∈ histA, FPAncestor objects a x := by
      refine collectHistory_sound objects a _ [a] [] ?_ ?_ histA hA
      · intro q hq; simp at hq; subst hq; exact FPAncestor.refl _
      · intro x hx; simp at hx
    have hb := findFirstCommon_sound objects histA b _ [b] []
      (by intro q hq; simp at hq; subst hq; exact FPAncestor.refl _) c h
    exact ⟨hsubA c hb.2, hb.1⟩

/-- Witness for the amended C1 theorem at the two-commit chain. -/
theorem findMergeBase_first_parent_sound_witness :
    FPAncestor chainStore "m" "p1" ∧ FPAncestor chainStore "p1" "p1" :=
  findMergeBase_first_parent_sound chainStore "m" "p1" "p1" rfl

/-! ## C2: diff of identical contents -/

/-- C2: the claim says `diff(X, X)` produces zero hunks for every content X;
the grouping loop of `groupEditsIntoChunks` force-includes the first and last
edit of the script, so the one-line content `"a"` diffed against itself
yields one context-only hunk, not zero. -/
theorem diff_self_nonempty_hunk :
    diffContent "a" "a" 3 = [⟨1, 1, 1, 1, [" a"]⟩] ∧ diffContent "a" "a" 3 ≠ [] := by
  decide

/-! ## C7: canonical tree serialization -/

/-- C7: two trees with equal path→objectId mappings (well-formed, as the
engine constructs them) serialize to byte-identical canonical forms — entry
order never matters because the serialization sorts the keys — hence they
hash to the same id. -/
theorem tree_serialization_canonical (t1 t2 : TreeObject)
    (h1 : WFTree t1) (h2 : WFTree t2)
    (hmap : ∀ p, (lookupEntry t1 p).map TreeEntry.objID =
      (lookupEntry t2 p).map TreeEntry.objID) :
    serializeTree t1 = serializeTree t2 := by
  have hsome : ∀ p, (t1.entries.lookup p).isSome = (t2.entries.lookup p).isSome := by
    intro p
    have h := congrArg Option.isSome (hmap p)
    simpa [lookupEntry] using h
  have mem_iff : ∀ p, p ∈ t1.entries.map Prod.fst ↔ p ∈ t2.entries.map Prod.fst := by
    intro p
    rw [← lookup_isSome_iff, ← lookup_isSome_iff, hsome p]
  have hk : sortedStrings (t1.entries.map Prod.fst) =
      sortedStrings (t2.entries.map Prod.fst) := by
    apply List.eq_of_perm_of_sorted (r := (· ≤ ·))
    · exact (List.perm_insertionSort _ _).trans
        (((List.perm_ext_iff_of_nodup h1.1 h2.1).mpr mem_iff).trans
          (List.perm_insertionSort _ _).symm)
    · exact List.sorted_insertionSort _ _
    · exact List.sorted_insertionSort _ _
  unfold serializeTree
  rw [hk]
  have hmapeq : ∀ k ∈ sortedStrings (t2.entries.map Prod.fst),
      "\"" ++ k ++ "\": " ++ renderEntry ((t1.entries.lookup k).getD ⟨"", "", "", ""⟩) =
      "\"" ++ k ++ "\": " ++ renderEntry ((t2.entries.lookup k).getD ⟨"", "", "", ""⟩) := by
    intro k hkmem
    have hk2 : k ∈ t2.entries.map Prod.fst :=
      (List.perm_insertionSort (· ≤ ·) _).mem_iff.mp hkmem
    have hk1 : k ∈ t1.entries.map Prod.fst := (mem_iff k).mpr hk2
    obtain ⟨e1, he1⟩ := Option.isSome_iff_exists.mp ((lookup_isSome_iff _ _).mpr hk1)
    obtain ⟨e2, he2⟩ := Option.isSome_iff_exists.mp ((lookup_isSome_iff _ _).mpr hk2)
    have hobj : e1.objID = e2.objID := by
      have := hmap k
      rw [lookupEntry, lookupEntry, he1, he2] at this
      simpa using this
    have hw1 := h1.2 (k, e1) (lookup_mem he1)
    have hw2 := h2.2 (k, e2) (lookup_mem he2)
    have : e1 = e2 := by
      obtain ⟨p1, m1, y1, o1⟩ := e1
      obtain ⟨p2, m2, y2, o2⟩ := e2
      simp only at hw1 hw2 hobj
      simp [hw1.1, hw1.2.1, hw1.2.2, hw2.1, hw2.2.1, hw2.2.2, hobj]
    rw [he1, he2, this]
  rw [List.map_congr_left hmapeq]

/-- Witness for C7: the same mapping inserted in opposite orders serializes
identically. -/
theorem tree_serialization_canonical_witness :
    serializeTree demoTreeA = serializeTree demoTreeB :=
  tree_serialization_canonical demoTreeA demoTreeB
    ⟨by decide, by decide⟩ ⟨by decide, by decide⟩
    (by
      intro p
      by_cases ha : p = "a.txt"
      · subst ha; decide
      · by_cases hb : p = "b.txt"
        · subst hb; decide
        · have ha2 : (p == "a.txt") = false := by simpa using ha
          have hb2 : (p == "b.txt") = false := by simpa using hb
          simp [demoTreeA, demoTreeB, lookupEntry, List.lookup_cons, ha2, hb2])

/-! ## C8: reference resolution and symbolic cycles -/

/-- C8 counterexample: with HEAD symbolically pointing at itself (a cycle),
`resolveReference` does not fail with a `CorruptReference` error as the claim
requires — it returns the raw `ref:` line as if it were a commit id. -/
theorem resolve_cyclic_head_returns_ok :
    resolveReference cyclicRefFiles "HEAD" = Except.ok "ref: HEAD" := rfl

/-- C8 (amended): `resolveReference` performs no cycle detection at all: it
follows exactly one level of symbolic indirection from HEAD, so whenever
HEAD's `ref:` target is HEAD itself the function returns HEAD's own trimmed
content as the "commit id", with no error. -/
theorem resolveReference_no_cycle_detection (files : List (String × String))
    (c : String) (h1 : files.lookup "HEAD" = some c)
    (h2 : 4 < c.length ∧ strTake c 4 = "ref:")
    (h3 : strTrim (strDrop c 4) = "HEAD") :
    resolveReference files "HEAD" = Except.ok (strTrim c) := by
  unfold resolveReference
  rw [if_pos rfl]
  simp only [h1]
  rw [if_pos h2, h3]
  simp only [h1]

/-- Witness for the amended C8 theorem on the cyclic store. -/
theorem resolveReference_no_cycle_detection_witness :
    resolveReference cyclicRefFiles "HEAD" = Except.ok (strTrim "ref: HEAD\n") :=
  resolveReference_no_cycle_detection cyclicRefFiles "ref: HEAD\n"
    (by decide) (by decide) (by decide)

theorem readCommit_after_store (objects : List (String × Obj)) (cid : String)
    (co : CommitObject) :
    readCommitObj ((cid, Obj.commit co) :: objects) cid = some co := by
  simp [readCommitObj, List.lookup_cons]

theorem readTree_after_commit_store (objects : List (String × Obj)) (tid cid : String)
    (t : TreeObject) (co : CommitObject) (h : cid ≠ tid) :
    readTreeObj ((cid, Obj.commit co) :: (tid, Obj.tree t) :: objects) tid = some t := by
  have hne : (tid == cid) = false := by
    simp only [beq_eq_false_iff_ne]
    exact fun hh => h hh.symm
  simp [readTreeObj, List.lookup_cons, hne]

/-! ## C9: the commit tree is built solely from the stage -/

/-- C9: `Commit` builds the new tree exclusively from the staging area: for a
nonempty stage the commit succeeds, and a path has an entry in the new
commit's tree iff it is staged — files tracked by earlier commits but not
re-staged are absent.  (`hkind` records that the commit hash and the tree
hash never collide, which content addressing guarantees.) -/
theorem commit_tree_iff_staged (ctx : MergeCtx) (m : RepoModel) (msg : String)
    (hstage : m.stage ≠ [])
    (hkind : ∀ co t, ctx.hashCommit co ≠ ctx.hashTree t) :
    ∃ r, commitRepo ctx m msg = Except.ok r ∧
      ∃ cobj tr, readCommitObj r.1.objects r.2 = some cobj ∧
        readTreeObj r.1.objects cobj.tree = some tr ∧
        ∀ p, (lookupEntry tr p).isSome = (m.stage.lookup p).isSome := by
  unfold commitRepo
  rw [if_neg hstage]
  refine ⟨_, rfl, ?_⟩
  refine ⟨_, treeFromStage m.stage, readCommit_after_store _ _ _, ?_, ?_⟩
  · exact readTree_after_commit_store m.objects _ _ _ _ (hkind _ _)
  · intro p
    simpa [lookupEntry, treeFromStage] using
      lookup_map_pair_isSome m.stage (fun kv => TreeEntry.mk kv.1 "100644" "blob" kv.2) p

/-- Witness for C9: a one-file stage commits to a tree containing exactly
that file. -/
theorem commit_tree_iff_staged_witness :
    ∃ r, commitRepo demoCtx ⟨[], [], "refs/heads/main", [("a.txt", "id1")], []⟩ "m" =
        Except.ok r ∧
      ∃ cobj tr, readCommitObj r.1.objects r.2 = some cobj ∧
        readTreeObj r.1.objects cobj.tree = some tr ∧
        ∀ p, (lookupEntry tr p).isSome = ([("a.txt", "id1")].lookup p).isSome :=
  commit_tree_iff_staged demoCtx ⟨[], [], "refs/heads/main", [("a.txt", "id1")], []⟩ "m"
    (by decide) (fun co t => by simp [demoCtx])

/-! ## Association-list helpers for the tree-merge lemmas -/

theorem lookup_append_of_none {β : Type} {l1 : List (String × β)} {p : String}
    (h : l1.lookup p = none) (l2 : List (String × β)) :
    (l1 ++ l2).lookup p = l2.lookup p := by
  induction l1 with
  | nil => rfl
  | cons kv t ih =>
    obtain ⟨k, v⟩ := kv
    cases hk : (p == k) with
    | true => simp [List.lookup_cons, hk] at h
    | false =>
      simp only [List.lookup_cons, hk] at h
      simpa [List.lookup_cons, hk] using ih h

theorem lookup_append_of_some {β : Type} {l1 : List (String × β)} {p : String} {b : β}
    (h : l1.lookup p = some b) (l2 : List (String × β)) :
    (l1 ++ l2).lookup p = some b := by
  induction l1 with
  | nil => simp [List.lookup] at h
  | cons kv t ih =>
    obtain ⟨k, v⟩ := kv
    cases hk : (p == k) with
    | true =>
      simp only [List.lookup_cons, hk] at h
      simp [List.lookup_cons, hk, h]
    | false =>
      simp only [List.lookup_cons, hk] at h
      simpa [List.lookup_cons, hk] using ih h

theorem lookup_append_single_ne {β : Type} (l : List (String × β)) {p q : String}
    (h : p ≠ q) (b : β) : (l ++ [(q, b)]).lookup p = l.lookup p := by
  cases hl : l.lookup p with
  | none =>
    rw [lookup_append_of_none hl]
    have : (p == q) = false := by simpa using h
    simp [List.lookup_cons, this]
  | some v => exact lookup_append_of_some hl _

theorem ext_refl (ctx : MergeCtx) (o : List (String × Obj)) : Ext ctx o o :=
  fun _ _ => rfl

theorem ext_trans {ctx : MergeCtx} {o1 o2 o3 : List (String × Obj)}
    (h1 : Ext ctx o1 o2) (h2 : Ext ctx o2 o3) : Ext ctx o1 o3 :=
  fun k hk => (h2 k hk).trans (h1 k hk)

theorem ext_store {ctx : MergeCtx} {o1 o2 : List (String × Obj)} (h : Ext ctx o1 o2)
    (s : String) (ob : Obj) : Ext ctx o1 (storeObject o2 (ctx.hashBlob s) ob) := by
  intro k hk
  have hne : (k == ctx.hashBlob s) = false := by simpa using hk s
  simp only [storeObject, List.lookup_cons, hne]
  exact h k hk

theorem ext_readRaw {ctx : MergeCtx} {o1 o2 : List (String × Obj)} (h : Ext ctx o1 o2)
    {k : String} (hk : ∀ s, k ≠ ctx.hashBlob s) : readRaw o2 k = readRaw o1 k := by
  unfold readRaw
  rw [h k hk]

theorem mergePath_ext (ctx : MergeCtx) (opts : MergeOptions)
    (objs : List (String × Obj)) (baseT ourT theirT : TreeObject) (q : String)
    (r : List (String × Obj) × Option TreeEntry × Option MergeConflict)
    (h : mergePath ctx opts objs baseT ourT theirT q = Except.ok r) :
    Ext ctx objs r.1 := by
  unfold mergePath at h
  repeat' split at h
  all_goals try simp only [] at h
  all_goals try (repeat' split at h)
  all_goals try exact Except.noConfusion h
  all_goals injection h with h2
  all_goals subst h2
  all_goals first
    | exact ext_refl ctx objs
    | exact ext_store (ext_refl ctx objs) _ _

theorem mergePath_conflict_path (ctx : MergeCtx) (opts : MergeOptions)
    (objs : List (String × Obj)) (baseT ourT theirT : TreeObject) (q : String)
    (r : List (String × Obj) × Option TreeEntry × Option MergeConflict)
    (h : mergePath ctx opts objs baseT ourT theirT q = Except.ok r) :
    ∀ c, r.2.2 = some c → c.path = q := by
  unfold mergePath at h
  repeat' split at h
  all_goals try simp only [] at h
  all_goals try (repeat' split at h)
  all_goals try exact Except.noConfusion h
  all_goals injection h with h2
  all_goals subst h2
  all_goals intro c hc
  all_goals simp only at hc
  all_goals try exact Option.noConfusion hc
  all_goals (injection hc with h3; subst h3; rfl)

theorem mergeTreesGo_not_mem (ctx : MergeCtx) (opts : MergeOptions)
    (baseT ourT theirT : TreeObject) :
    ∀ (ps : List String) (p : String), p ∉ ps →
      ∀ objs entries conflicts res,
        mergeTreesGo ctx opts baseT ourT theirT ps objs entries conflicts = Except.ok res →
        res.2.1.entries.lookup p = entries.lookup p ∧
        res.2.2.filter (fun c => c.path = p) = conflicts.filter (fun c => c.path = p) := by
  intro ps
  induction ps with
  | nil =>
    intro p hp objs entries conflicts res h
    simp only [mergeTreesGo] at h
    injection h with h2
    subst h2
    exact ⟨rfl, rfl⟩
  | cons q ps ih =>
    intro p hp objs entries conflicts res h
    have hpq : p ≠ q := fun hh => hp (hh ▸ List.mem_cons_self q ps)
    have hps : p ∉ ps := fun hh => hp (List.mem_cons_of_mem q hh)
    simp only [mergeTreesGo] at h
    cases hmp : mergePath ctx opts objs baseT ourT theirT q with
    | error e =>
      simp only [hmp] at h
      exact Except.noConfusion h
    | ok trip =>
      simp only [hmp] at h
      obtain ⟨o1, eo, co⟩ := trip
      have hrec := ih p hps _ _ _ res h
      constructor
      · rw [hrec.1]
        cases eo with
        | none => simp
        | some e => exact lookup_append_single_ne entries hpq e
      · rw [hrec.2]
        cases co with
        | none => simp
        | some c =>
          have hcp : c.path = q := mergePath_conflict_path ctx opts objs baseT ourT theirT
            q (o1, eo, some c) hmp c rfl
          have : (decide (c.path = p)) = false := by
            simp only [decide_eq_false_iff_not]
            rw [hcp]
            exact fun hh => hpq hh.symm
          simp [List.filter_append, this]

theorem mergeTreesGo_perPath (ctx : MergeCtx) (opts : MergeOptions)
    (baseT ourT theirT : TreeObject) (objects0 : List (String × Obj)) (p : String)
    (out : Option TreeEntry) (conf : Option MergeConflict)
    (hstep : ∀ objs, Ext ctx objects0 objs →
      ∃ o1, mergePath ctx opts objs baseT ourT theirT p = Except.ok (o1, out, conf)) :
    ∀ (ps : List String), ps.Nodup → p ∈ ps →
      ∀ objs entries conflicts res,
        Ext ctx objects0 objs →
        entries.lookup p = none →
        conflicts.filter (fun c => c.path = p) = [] →
        mergeTreesGo ctx opts baseT ourT theirT ps objs entries conflicts = Except.ok res →
        res.2.1.entries.lookup p = out ∧
        res.2.2.filter (fun c => c.path = p) = conf.toList := by
  intro ps
  induction ps with
  | nil => intro _ hp; simp at hp
  | cons q ps ih =>
    intro hnd hp objs entries conflicts res hext hent hconf h
    simp only [mergeTreesGo] at h
    by_cases hq : p = q
    · subst hq
      obtain ⟨o1, hmp⟩ := hstep objs hext
      simp only [hmp] at h
      have hpnot : p ∉ ps := (List.nodup_cons.mp hnd).1
      have hrec := mergeTreesGo_not_mem ctx opts baseT ourT theirT ps p hpnot _ _ _ res h
      constructor
      · rw [hrec.1, lookup_append_of_none hent]
        cases out with
        | none => rfl
        | some e => simp [List.lookup_cons]
      · rw [hrec.2, List.filter_append, hconf]
        cases conf with
        | none => rfl
        | some c =>
          have hcp : c.path = p := mergePath_conflict_path ctx opts objs baseT ourT theirT
            p (o1, out, some c) hmp c rfl
          simp [hcp]
    · cases hmp : mergePath ctx opts objs baseT ourT theirT q with
      | error e =>
        simp only [hmp] at h
        exact Except.noConfusion h
      | ok trip =>
        simp only [hmp] at h
        obtain ⟨o1, eo, co⟩ := trip
        have hext1 : Ext ctx objects0 o1 :=
          ext_trans hext (mergePath_ext ctx opts objs baseT ourT theirT q (o1, eo, co) hmp)
        have hent1 : (entries ++ (eo.map fun e => (q, e)).toList).lookup p = none := by
          cases eo with
          | none => simpa using hent
          | some e =>
            show (entries ++ [(q, e)]).lookup p = none
            rw [lookup_append_single_ne entries hq e]
            exact hent
        have hconf1 : (conflicts ++ co.toList).filter (fun c => c.path = p) = [] := by
          cases co with
          | none => simpa using hconf
          | some c =>
            have hcp : c.path = q := mergePath_conflict_path ctx opts objs baseT ourT theirT
              q (o1, eo, some c) hmp c rfl
            have : (decide (c.path = p)) = false := by
              simp only [decide_eq_false_iff_not]
              rw [hcp]
              exact fun hh => hq hh.symm
            simp [List.filter_append, hconf, this]
        exact ih (List.nodup_cons.mp hnd).2 ((List.mem_cons.mp hp).resolve_left hq)
          _ _ _ res hext1 hent1 hconf1 h

/-! ## C6: one-sided deletion is not a conflict -/

/-- C6: a path present in base and ours but deleted in theirs keeps the ours
entry in the merged tree with zero conflicts for that path (even when ours
modified it); symmetrically a path present in base and theirs but deleted in
ours keeps the theirs entry without conflict. -/
theorem mergeTrees_delete_keeps_other_side (ctx : MergeCtx) (opts : MergeOptions)
    (objects : List (String × Obj)) (baseT ourT theirT : TreeObject)
    (res : List (String × Obj) × TreeObject × List MergeConflict)
    (h : mergeTrees ctx opts objects baseT ourT theirT = Except.ok res) :
    (∀ p be oe, lookupEntry baseT p = some be → lookupEntry ourT p = some oe →
      lookupEntry theirT p = none →
      res.2.1.entries.lookup p = some oe ∧
        res.2.2.filter (fun c => c.path = p) = []) ∧
    (∀ p be te, lookupEntry baseT p = some be → lookupEntry ourT p = none →
      lookupEntry theirT p = some te →
      res.2.1.entries.lookup p = some te ∧
        res.2.2.filter (fun c => c.path = p) = []) := by
  constructor
  · intro p be oe hb ho ht
    have hp : p ∈ allPaths baseT ourT theirT := by
      unfold allPaths
      rw [List.mem_dedup]
      refine List.mem_append.mpr (Or.inl (List.mem_append.mpr (Or.inl ?_)))
      rw [← lookup_isSome_iff]
      simp [lookupEntry] at hb
      simp [hb]
    exact mergeTreesGo_perPath ctx opts baseT ourT theirT objects p (some oe) none
      (fun objs _ => ⟨objs, by simp only [mergePath, hb, ho, ht]⟩)
      (allPaths baseT ourT theirT) (List.nodup_dedup _) hp
      objects [] [] res (ext_refl ctx objects) rfl rfl h
  · intro p be te hb ho ht
    have hp : p ∈ allPaths baseT ourT theirT := by
      unfold allPaths
      rw [List.mem_dedup]
      refine List.mem_append.mpr (Or.inl (List.mem_append.mpr (Or.inl ?_)))
      rw [← lookup_isSome_iff]
      simp [lookupEntry] at hb
      simp [hb]
    exact mergeTreesGo_perPath ctx opts baseT ourT theirT objects p (some te) none
      (fun objs _ => ⟨objs, by simp only [mergePath, hb, ho, ht]⟩)
      (allPaths baseT ourT theirT) (List.nodup_dedup _) hp
      objects [] [] res (ext_refl ctx objects) rfl rfl h

/-- Witness for C6: ours modified `f.txt`, theirs deleted it; the merged tree
keeps the ours blob, conflict-free. -/
theorem mergeTrees_delete_keeps_other_side_witness :
    delMergeRes.2.1.entries.lookup "f.txt" =
        some ⟨"f.txt", "100644", "blob", "B1"⟩ ∧
      delMergeRes.2.2.filter (fun c => c.path = "f.txt") = [] :=
  (mergeTrees_delete_keeps_other_side demoCtx plainAutoOpts [] delBaseTree delOurTree
    delTheirTree delMergeRes rfl).1 "f.txt" ⟨"f.txt", "100644", "blob", "B0"⟩
    ⟨"f.txt", "100644", "blob", "B1"⟩ rfl rfl rfl

/-! ## C5: both sides added the same path with different contents -/

theorem hash_ne_of_head (s t : String) (h : t.data.head? ≠ some '#') :
    ("#" ++ s) ≠ t := by
  intro he
  apply h
  rw [← he, String.data_append]
  rfl

/-- C5 counterexample: `f.txt` is absent in base and added with different
non-code contents on both sides under strategy Auto; the tree merge reports a
conflict, yet the three-way file merge with an empty base would have resolved
those contents without conflict — so "conflict only when the file merge
leaves it unresolved" is false: no file merge is consulted at all in this
branch. -/
theorem mergeTrees_added_both_conflicts_without_file_merge :
    mergeTrees demoCtx plainAutoOpts addedObjects addedBaseTree addedOurTree
        addedTheirTree =
      Except.ok (addedObjects, ⟨[]⟩, [⟨"f.txt", "a", "b", "", ""⟩]) ∧
    mergeFiles "" "a" "b" MergeStrategy.auto = ("a\nb", false) :=
  ⟨rfl, by decide⟩

/-- C5 (amended): for a path absent in base and added with different contents
in ours and theirs, when the semantic path is off (UseSemantic false or not a
code file) `MergeTrees` consults no file-content merge: the path is reported
as a conflict exactly when the strategy is neither Ours nor Theirs (which
would pick a side instead). -/
theorem mergeTrees_added_both_plain (ctx : MergeCtx) (opts : MergeOptions)
    (objects : List (String × Obj)) (baseT ourT theirT : TreeObject)
    (p : String) (oe te : TreeEntry) (oC tC : String)
    (res : List (String × Obj) × TreeObject × List MergeConflict)
    (hb : lookupEntry baseT p = none) (ho : lookupEntry ourT p = some oe)
    (ht : lookupEntry theirT p = some te)
    (hne : oe.objID ≠ te.objID)
    (hsem : ¬(opts.useSemantic = true ∧ isCodeFile p = true))
    (hro : readRaw objects oe.objID = some oC)
    (hrt : readRaw objects te.objID = some tC)
    (hfresh : ∀ s, ctx.hashBlob s ≠ oe.objID ∧ ctx.hashBlob s ≠ te.objID)
    (h : mergeTrees ctx opts objects baseT ourT theirT = Except.ok res) :
    res.2.2.filter (fun c => c.path = p) =
      (if opts.strategy = MergeStrategy.ours ∨ opts.strategy = MergeStrategy.theirs
        then ([] : List MergeConflict) else [⟨p, oC, tC, "", ""⟩]) := by
  have hp : p ∈ allPaths baseT ourT theirT := by
    unfold allPaths
    rw [List.mem_dedup]
    refine List.mem_append.mpr (Or.inl (List.mem_append.mpr (Or.inr ?_)))
    rw [← lookup_isSome_iff]
    simp [lookupEntry] at ho
    simp [ho]
  have hstep : ∀ objs, Ext ctx objects objs →
      ∃ o1, mergePath ctx opts objs baseT ourT theirT p = Except.ok
        (o1,
          if opts.strategy = MergeStrategy.ours then
            some ⟨p, "100644", "blob", ctx.hashBlob oC⟩
          else if opts.strategy = MergeStrategy.theirs then
            some ⟨p, "100644", "blob", ctx.hashBlob tC⟩
          else none,
          if opts.strategy = MergeStrategy.ours ∨ opts.strategy = MergeStrategy.theirs
            then none else some ⟨p, oC, tC, "", ""⟩) := by
    intro objs hext
    have hro2 : readRaw objs oe.objID = some oC :=
      (ext_readRaw hext fun s => ((hfresh s).1).symm).trans hro
    have hrt2 : readRaw objs te.objID = some tC :=
      (ext_readRaw hext fun s => ((hfresh s).2).symm).trans hrt
    by_cases h1 : opts.strategy = MergeStrategy.ours
    · refine ⟨storeObject objs (ctx.hashBlob oC) (Obj.blob oC), ?_⟩
      simp only [mergePath, hb, ho, ht]
      rw [if_neg hne]
      simp only [hro2, hrt2]
      rw [if_neg hsem, if_pos h1]
      simp [h1]
    · by_cases h2 : opts.strategy = MergeStrategy.theirs
      · refine ⟨storeObject objs (ctx.hashBlob tC) (Obj.blob tC), ?_⟩
        simp only [mergePath, hb, ho, ht]
        rw [if_neg hne]
        simp only [hro2, hrt2]
        rw [if_neg hsem, if_neg h1, if_pos h2]
        simp [h1, h2]
      · refine ⟨objs, ?_⟩
        simp only [mergePath, hb, ho, ht]
        rw [if_neg hne]
        simp only [hro2, hrt2]
        rw [if_neg hsem, if_neg h1, if_neg h2]
        simp [h1, h2]
  have := mergeTreesGo_perPath ctx opts baseT ourT theirT objects p _ _ hstep
    (allPaths baseT ourT theirT) (List.nodup_dedup _) hp
    objects [] [] res (ext_refl ctx objects) rfl rfl h
  rw [this.2]
  by_cases h1 : opts.strategy = MergeStrategy.ours
  · simp [h1]
  · by_cases h2 : opts.strategy = MergeStrategy.theirs
    · simp [h1, h2]
    · simp [h1, h2]

/-- Witness for the amended C5 theorem: Auto strategy, non-code path — exactly
one conflict carrying both added contents. -/
theorem mergeTrees_added_both_plain_witness :
    ([⟨"f.txt", "a", "b", "", ""⟩] : List MergeConflict).filter
        (fun c => c.path = "f.txt") =
      (if plainAutoOpts.strategy = MergeStrategy.ours ∨
          plainAutoOpts.strategy = MergeStrategy.theirs
        then ([] : List MergeConflict) else [⟨"f.txt", "a", "b", "", ""⟩]) :=
  mergeTrees_added_both_plain demoCtx plainAutoOpts addedObjects addedBaseTree
    addedOurTree addedTheirTree "f.txt" ⟨"f.txt", "100644", "blob", "A1"⟩
    ⟨"f.txt", "100644", "blob", "A2"⟩ "a" "b"
    (addedObjects, ⟨[]⟩, [⟨"f.txt", "a", "b", "", ""⟩])
    rfl rfl rfl (by decide) (by decide) rfl rfl
    (fun s => ⟨hash_ne_of_head s "A1" (by decide), hash_ne_of_head s "A2" (by decide)⟩)
    rfl

/-! ## C4: fast-forward exactly when the merge base is our tip -/

theorem refsHeads_ne_head (s : String) : ("refs/heads/" ++ s) ≠ "HEAD" := by
  intro h
  have h2 : ("refs/heads/" ++ s).data.head? = ("HEAD" : String).data.head? := by rw [h]
  rw [String.data_append] at h2
  have h3 : some 'r' = some 'H' := h2
  simp at h3

/-- C4: when `FindMergeBase` returns our tip, `Merge` fast-forwards: the
result has `FastForward = true`, no conflicts, `MergedCommit` equal to the
target tip; the current branch reference is moved to the target and the
object store is unchanged (no commit object is created).  Conversely, when
the merge base differs from our tip, any successful merge has
`FastForward = false`. -/
theorem merge_fastforward_iff (ctx : MergeCtx) (m : RepoModel) (branchName : String)
    (opts : MergeOptions) (cur ourId theirId baseId : String)
    (tco : CommitObject) (ttree : TreeObject)
    (hcur : getCurrentBranch m = Except.ok cur)
    (hour : resolveReference m.files ("refs/heads/" ++ cur) = Except.ok ourId)
    (hthe : resolveReference m.files ("refs/heads/" ++ branchName) = Except.ok theirId)
    (hstage : m.stage = [])
    (hbase : findMergeBase m.objects ourId theirId = some (Except.ok baseId))
    (htrim : strTrim theirId = theirId)
    (hc : readCommitObj m.objects theirId = some tco)
    (ht : readTreeObj m.objects tco.tree = some ttree)
    (hall : ttree.entries.all (fun kv => (m.objects.lookup kv.2.objID).isSome) = true) :
    (baseId = ourId →
      ∃ m2, merge ctx m branchName opts = Except.ok (m2, ⟨true, true, [], theirId⟩) ∧
        m2.objects = m.objects ∧
        m2.files.lookup ("refs/heads/" ++ cur) = some theirId) ∧
    (baseId ≠ ourId →
      ∀ r, merge ctx m branchName opts = Except.ok r → r.2.fastForward = false) := by
  have hne1 : ¬("refs/heads/" ++ cur) = "HEAD" := refsHeads_ne_head cur
  have hbeqH : ((("refs/heads/" ++ cur) : String) == "HEAD") = false := by
    simpa using hne1
  constructor
  · intro hff
    subst hff
    refine ⟨{ m with
        files := ("HEAD", "ref: refs/heads/" ++ cur ++ "\n") ::
          ("refs/heads/" ++ cur, theirId) :: m.files,
        head := "refs/heads/" ++ cur,
        stage := [],
        tracked := ttree.entries.map fun kv => (kv.1, kv.2.objID) }, ?_, rfl, ?_⟩
    · unfold merge
      simp only [hcur, hour, hthe, hbase, hstage, ne_eq, not_true_eq_false,
        not_false_eq_true, if_true, if_false]
      unfold updateReference
      rw [if_neg hne1]
      unfold checkoutBranch setFile
      simp only [List.lookup_cons, beq_self_eq_true, hstage, ne_eq,
        not_true_eq_false, if_false]
      unfold resolveReference
      rw [if_neg hne1]
      simp only [List.lookup_cons, beq_self_eq_true, htrim, hc, ht, hall, if_true]
    · simp only [List.lookup_cons, hbeqH, beq_self_eq_true]
  · intro hnf r hr
    unfold merge at hr
    simp only [hcur, hour, hthe, hbase, hstage, ne_eq, not_true_eq_false,
      not_false_eq_true, if_true, if_false] at hr
    rw [if_neg hnf] at hr
    repeat' split at hr
    all_goals try exact Except.noConfusion hr
    all_goals injection hr with hr2
    all_goals subst hr2
    all_goals rfl

/-- Witness for C4: `main` at root `c1`, `feature` one commit ahead at `c2`;
merging `feature` fast-forwards `main` to `c2` without creating objects. -/
theorem merge_fastforward_iff_witness :
    ∃ m2, merge demoCtx ffModel "feature" plainAutoOpts =
        Except.ok (m2, ⟨true, true, [], "c2"⟩) ∧
      m2.objects = ffModel.objects ∧
      m2.files.lookup ("refs/heads/" ++ "main") = some "c2" :=
  (merge_fastforward_iff demoCtx ffModel "feature" plainAutoOpts "main" "c1" "c2" "c1"
    ⟨"t2", "c1", "", "", "", "", 0⟩ ⟨[]⟩ rfl rfl rfl rfl rfl rfl rfl rfl rfl).1 rfl

/-! ## C10: an Auto-strategy conflict still produces a merge commit -/

theorem all_isSome_cons (l : List (String × TreeEntry)) (objs : List (String × Obj))
    (a : String) (o : Obj)
    (h : l.all (fun kv => (objs.lookup kv.2.objID).isSome) = true) :
    l.all (fun kv => (((a, o) :: objs).lookup kv.2.objID).isSome) = true := by
  rw [List.all_eq_true] at h ⊢
  intro kv hkv
  have h2 := h kv hkv
  cases hb : (kv.2.objID == a) with
  | true => simp [List.lookup_cons, hb]
  | false => simpa [List.lookup_cons, hb] using h2

/-- C10: strategy Auto with NoCommit false: when the plain per-file merge
leaves a conflict at a path present in base, ours and theirs, `Merge` still
creates a two-parent merge commit (parents = our tip and their tip), advances
the current branch reference to it and returns `Success = true` with the
conflict listed in `Conflicts`; the conflicted path is omitted from the
merged tree of that commit. -/
theorem merge_auto_conflict_commits (ctx : MergeCtx) (m : RepoModel)
    (branchName : String) (opts : MergeOptions)
    (cur ourId theirId baseId : String) (baseT ourT theirT : TreeObject)
    (o1 : List (String × Obj)) (mt : TreeObject) (cs : List MergeConflict)
    (p : String) (be oe te : TreeEntry) (bC oC tC : String)
    (hcur : getCurrentBranch m = Except.ok cur)
    (hour : resolveReference m.files ("refs/heads/" ++ cur) = Except.ok ourId)
    (hthe : resolveReference m.files ("refs/heads/" ++ branchName) = Except.ok theirId)
    (hstage : m.stage = [])
    (hbase : findMergeBase m.objects ourId theirId = some (Except.ok baseId))
    (hneq : baseId ≠ ourId)
    (hbt : getTreeFromCommit m.objects baseId = Except.ok baseT)
    (hot : getTreeFromCommit m.objects ourId = Except.ok ourT)
    (htt : getTreeFromCommit m.objects theirId = Except.ok theirT)
    (hstrat : opts.strategy = MergeStrategy.auto)
    (hnc : opts.noCommit = false)
    (hmsg : opts.message = "")
    (hmt : mergeTrees ctx opts m.objects baseT ourT theirT = Except.ok (o1, mt, cs))
    (hpb : lookupEntry baseT p = some be) (hpo : lookupEntry ourT p = some oe)
    (hpt : lookupEntry theirT p = some te)
    (hid1 : be.objID ≠ oe.objID) (hid2 : be.objID ≠ te.objID)
    (hid3 : oe.objID ≠ te.objID)
    (hsem : ¬(opts.useSemantic = true ∧ isCodeFile p = true))
    (hrb : readRaw m.objects be.objID = some bC)
    (hro : readRaw m.objects oe.objID = some oC)
    (hrt : readRaw m.objects te.objID = some tC)
    (hfresh : ∀ s, ctx.hashBlob s ≠ be.objID ∧ ctx.hashBlob s ≠ oe.objID ∧
      ctx.hashBlob s ≠ te.objID)
    (hconf : (mergeFiles bC oC tC opts.strategy).2 = true)
    (hread : mt.entries.all (fun kv => (o1.lookup kv.2.objID).isSome) = true) :
    ∃ m2 cid,
      merge ctx m branchName opts = Except.ok (m2, ⟨true, false, cs, cid⟩) ∧
      cid = ctx.hashCommit (mergeCommitObj ctx
        ("Merge branch '" ++ branchName ++ "' into " ++ cur) ourId theirId
        (ctx.hashTree mt)) ∧
      readCommitObj m2.objects cid = some (mergeCommitObj ctx
        ("Merge branch '" ++ branchName ++ "' into " ++ cur) ourId theirId
        (ctx.hashTree mt)) ∧
      (mergeCommitObj ctx ("Merge branch '" ++ branchName ++ "' into " ++ cur)
        ourId theirId (ctx.hashTree mt)).parent = ourId ∧
      (mergeCommitObj ctx ("Merge branch '" ++ branchName ++ "' into " ++ cur)
        ourId theirId (ctx.hashTree mt)).parent2 = theirId ∧
      (⟨p, oC, tC, bC, ""⟩ : MergeConflict) ∈ cs ∧
      lookupEntry mt p = none ∧
      m2.files.lookup ("refs/heads/" ++ cur) = some cid := by
  -- Part 1: the per-path outcome at the conflicted path.
  have hp : p ∈ allPaths baseT ourT theirT := by
    unfold allPaths
    rw [List.mem_dedup]
    refine List.mem_append.mpr (Or.inl (List.mem_append.mpr (Or.inl ?_)))
    rw [← lookup_isSome_iff]
    simp [lookupEntry] at hpb
    simp [hpb]
  have hstep : ∀ objs, Ext ctx m.objects objs →
      ∃ oX, mergePath ctx opts objs baseT ourT theirT p = Except.ok
        (oX, none, some ⟨p, oC, tC, bC, ""⟩) := by
    intro objs hext
    have hrb2 : readRaw objs be.objID = some bC :=
      (ext_readRaw hext fun s => ((hfresh s).1).symm).trans hrb
    have hro2 : readRaw objs oe.objID = some oC :=
      (ext_readRaw hext fun s => ((hfresh s).2.1).symm).trans hro
    have hrt2 : readRaw objs te.objID = some tC :=
      (ext_readRaw hext fun s => ((hfresh s).2.2).symm).trans hrt
    refine ⟨objs, ?_⟩
    simp only [mergePath, hpb, hpo, hpt]
    rw [if_neg (fun hh => hid1 hh.1), if_neg (fun hh => hid2 hh.1), if_neg hid3]
    simp only [hrb2, hro2, hrt2]
    have hs : (if opts.useSemantic = true ∧ isCodeFile p = true then
        ctx.semMerge bC oC tC
      else Except.ok (mergeFiles bC oC tC opts.strategy)) =
        Except.ok (mergeFiles bC oC tC opts.strategy) := if_neg hsem
    simp only [hs]
    have hconf2 : (mergeFiles bC oC tC MergeStrategy.auto).2 = true := by
      rw [← hstrat]; exact hconf
    simp only [hstrat, hconf2, if_true]
    simp [hconf2]
  have hper := mergeTreesGo_perPath ctx opts baseT ourT theirT m.objects p
    none (some ⟨p, oC, tC, bC, ""⟩) hstep
    (allPaths baseT ourT theirT) (List.nodup_dedup _) hp
    m.objects [] [] (o1, mt, cs) (ext_refl ctx m.objects) rfl rfl hmt
  have hlook : mt.entries.lookup p = none := hper.1
  have hmem : (⟨p, oC, tC, bC, ""⟩ : MergeConflict) ∈ cs := by
    have hfil := hper.2
    have : (⟨p, oC, tC, bC, ""⟩ : MergeConflict) ∈
        cs.filter (fun c => c.path = p) := by
      rw [hfil]; exact List.mem_singleton_self _
    exact List.mem_of_mem_filter this
  -- Part 2: the merge orchestration.
  refine ⟨{ m with
      objects := storeObject (storeObject o1 (ctx.hashTree mt) (Obj.tree mt))
        (ctx.hashCommit (mergeCommitObj ctx
          ("Merge branch '" ++ branchName ++ "' into " ++ cur) ourId theirId
          (ctx.hashTree mt)))
        (Obj.commit (mergeCommitObj ctx
          ("Merge branch '" ++ branchName ++ "' into " ++ cur) ourId theirId
          (ctx.hashTree mt))),
      files := ("refs/heads/" ++ cur,
        ctx.hashCommit (mergeCommitObj ctx
          ("Merge branch '" ++ branchName ++ "' into " ++ cur) ourId theirId
          (ctx.hashTree mt))) :: m.files,
      tracked := mt.entries.foldl (fun t kv => setAssoc t kv.1 kv.2.objID) m.tracked },
    ctx.hashCommit (mergeCommitObj ctx
      ("Merge branch '" ++ branchName ++ "' into " ++ cur) ourId theirId
      (ctx.hashTree mt)), ?_, rfl, readCommit_after_store _ _ _, rfl, rfl, hmem, hlook, ?_⟩
  · unfold merge
    simp only [hcur, hour, hthe, hbase, hstage, ne_eq, not_true_eq_false,
      not_false_eq_true, if_true, if_false]
    rw [if_neg hneq]
    simp only [hbt, hot, htt, hmt]
    rw [if_neg (by simp [hstrat])]
    have hemp : (("" : String) = "") = True := by simp
    simp only [hnc, hmsg, Bool.false_eq_true, not_false_eq_true, if_true, hemp,
      storeObject]
    rw [if_pos (all_isSome_cons _ _ _ _ (all_isSome_cons _ _ _ _ hread))]
    unfold updateReference
    rw [if_neg (refsHeads_ne_head cur)]
    rfl
  · simp only [List.lookup_cons, beq_self_eq_true]

/-- Witness for C10: base `a\nb`, ours `a\nc`, theirs `d\nb` at `f.txt`
conflict under Auto, yet a two-parent merge commit is created and `main`
advances to it, with `f.txt` omitted from the merged tree. -/
theorem merge_auto_conflict_commits_witness :
    ∃ m2 cid,
      merge demoCtx conflictModel "feat" plainAutoOpts =
        Except.ok (m2, ⟨true, false, [⟨"f.txt", "a\nc", "d\nb", "a\nb", ""⟩], cid⟩) ∧
      cid = demoCtx.hashCommit (mergeCommitObj demoCtx "Merge branch 'feat' into main"
        "c1" "c2" (demoCtx.hashTree ⟨[]⟩)) ∧
      readCommitObj m2.objects cid = some (mergeCommitObj demoCtx
        "Merge branch 'feat' into main" "c1" "c2" (demoCtx.hashTree ⟨[]⟩)) ∧
      (mergeCommitObj demoCtx "Merge branch 'feat' into main" "c1" "c2"
        (demoCtx.hashTree ⟨[]⟩)).parent = "c1" ∧
      (mergeCommitObj demoCtx "Merge branch 'feat' into main" "c1" "c2"
        (demoCtx.hashTree ⟨[]⟩)).parent2 = "c2" ∧
      (⟨"f.txt", "a\nc", "d\nb", "a\nb", ""⟩ : MergeConflict) ∈
        [(⟨"f.txt", "a\nc", "d\nb", "a\nb", ""⟩ : MergeConflict)] ∧
      lookupEntry ⟨[]⟩ "f.txt" = none ∧
      m2.files.lookup ("refs/heads/" ++ "main") = some cid :=
  merge_auto_conflict_commits demoCtx conflictModel "feat" plainAutoOpts
    "main" "c1" "c2" "c0"
    ⟨[("f.txt", ⟨"f.txt", "100644", "blob", "B0"⟩)]⟩
    ⟨[("f.txt", ⟨"f.txt", "100644", "blob", "B1"⟩)]⟩
    ⟨[("f.txt", ⟨"f.txt", "100644", "blob", "B2"⟩)]⟩
    conflictObjects ⟨[]⟩ [⟨"f.txt", "a\nc", "d\nb", "a\nb", ""⟩]
    "f.txt" ⟨"f.txt", "100644", "blob", "B0"⟩ ⟨"f.txt", "100644", "blob", "B1"⟩
    ⟨"f.txt", "100644", "blob", "B2"⟩ "a\nb" "a\nc" "d\nb"
    rfl rfl rfl rfl rfl (by decide) rfl rfl rfl rfl rfl rfl rfl rfl rfl rfl
    (by decide) (by decide) (by decide) (by decide) rfl rfl rfl
    (fun s => ⟨hash_ne_of_head s "B0" (by decide), hash_ne_of_head s "B1" (by decide),
      hash_ne_of_head s "B2" (by decide)⟩)
    (by decide) rfl

/-! ## C3: the diff round-trip law.  First: the LCS backtrace only produces
matching in-range pairs, so `convertToEdits` yields a valid edit script. -/

theorem lcsBacktrack_pairs (a b : List String) :
    ∀ (f i j : Nat), i ≤ a.length → j ≤ b.length →
      ∀ pr ∈ lcsBacktrackGo a b f i j,
        pr.1 < a.length ∧ pr.2 < b.length ∧ a.getD pr.1 "" = b.getD pr.2 "" := by
  intro f
  induction f with
  | zero =>
    intro i j hi hj pr hpr
    match i, j with
    | 0, _ => simp [lcsBacktrackGo] at hpr
    | _+1, 0 => simp [lcsBacktrackGo] at hpr
    | _+1, _+1 => simp [lcsBacktrackGo] at hpr
  | succ f ih =>
    intro i j hi hj pr hpr
    match i, j with
    | 0, _ => simp [lcsBacktrackGo] at hpr
    | _+1, 0 => simp [lcsBacktrackGo] at hpr
    | i+1, j+1 =>
      simp only [lcsBacktrackGo] at hpr
      by_cases he : a.getD i "" = b.getD j ""
      · rw [if_pos he] at hpr
        rcases List.mem_append.mp hpr with h | h
        · exact ih i j (Nat.le_of_succ_le hi) (Nat.le_of_succ_le hj) pr h
        · simp at h
          subst h
          exact ⟨hi, hj, he⟩
      · rw [if_neg he] at hpr
        by_cases hcmp : lcsLen a b i (j+1) > lcsLen a b (i+1) j
        · rw [if_pos hcmp] at hpr
          exact ih i (j+1) (Nat.le_of_succ_le hi) hj pr hpr
        · rw [if_neg hcmp] at hpr
          exact ih (i+1) j hi (Nat.le_of_succ_le hj) pr hpr

theorem convGo_editsOK (a b : List String) (pairs : List (Nat × Nat))
    (hpairs : ∀ pr ∈ pairs, pr.1 < a.length ∧ pr.2 < b.length ∧
      a.getD pr.1 "" = b.getD pr.2 "") :
    ∀ (f p q : Nat), p ≤ a.length → q ≤ b.length →
      (a.length - p) + (b.length - q) ≤ f →
      EditsOK a b (convGo a b pairs f p q) p q := by
  intro f
  induction f with
  | zero =>
    intro p q hp hq hf
    have hp2 : p = a.length := by omega
    have hq2 : q = b.length := by omega
    subst hp2; subst hq2
    exact EditsOK.nil
  | succ f ih =>
    intro p q hp hq hf
    simp only [convGo]
    by_cases h1 : p < a.length ∨ q < b.length
    · rw [if_pos h1]
      by_cases h2 : p < a.length ∧ q < b.length ∧ lcsHas pairs p q = true
      · rw [if_pos h2]
        have hmem : (p, q) ∈ pairs := by
          have := h2.2.2
          simpa [lcsHas] using this
        have hpq := hpairs (p, q) hmem
        exact EditsOK.unch h2.1 h2.2.1 hpq.2.2
          (ih (p+1) (q+1) h2.1 h2.2.1 (by omega))
      · rw [if_neg h2]
        by_cases h3 : p < a.length ∧ (b.length ≤ q ∨
            (p+1 < a.length ∧ q < b.length ∧ lcsHas pairs (p+1) q = true))
        · rw [if_pos h3]
          exact EditsOK.del h3.1 hq (ih (p+1) q h3.1 hq (by omega))
        · rw [if_neg h3]
          by_cases h4 : q < b.length
          · rw [if_pos h4]
            exact EditsOK.ins hp h4 (ih p (q+1) hp h4 (by omega))
          · rw [if_neg h4]
            exfalso
            have hpl : p < a.length := by
              rcases h1 with h | h
              · exact h
              · exact absurd h h4
            exact h3 ⟨hpl, Or.inl (by omega)⟩
    · rw [if_neg h1]
      have hp2 : p = a.length := by omega
      have hq2 : q = b.length := by omega
      subst hp2; subst hq2
      exact EditsOK.nil

theorem convertToEdits_editsOK (a b : List String) :
    EditsOK a b (convertToEdits a b (longestCommonSubsequence a b)) 0 0 := by
  unfold convertToEdits
  exact convGo_editsOK a b _
    (lcsBacktrack_pairs a b (a.length + b.length) a.length b.length le_rfl le_rfl)
    (a.length + b.length) 0 0 (Nat.zero_le _) (Nat.zero_le _) (by omega)

/-! ### Chunk bookkeeping lemmas -/

theorem strmk_data (s : String) : String.mk s.data = s := by
  cases s
  rfl

theorem strTake_one_cat (pre v : String) (h : pre.data.length = 1) :
    strTake (pre ++ v) 1 = pre := by
  unfold strTake
  rw [String.data_append, ← h, List.take_left, strmk_data]

theorem strDrop_one_cat (pre v : String) (h : pre.data.length = 1) :
    strDrop (pre ++ v) 1 = v := by
  unfold strDrop
  rw [String.data_append, ← h, List.drop_left, strmk_data]

theorem chunkOutput_append (l1 l2 : List String) :
    chunkOutput (l1 ++ l2) = chunkOutput l1 ++ chunkOutput l2 :=
  List.filterMap_append l1 l2 _

theorem chunkOldCount_append (l1 l2 : List String) :
    chunkOldCount (l1 ++ l2) = chunkOldCount l1 + chunkOldCount l2 := by
  simp [chunkOldCount, List.filter_append]

theorem chunkOutput_space (v : String) : chunkOutput [" " ++ v] = [v] := by
  unfold chunkOutput
  rw [List.filterMap]
  simp [strTake_one_cat " " v rfl, strDrop_one_cat " " v rfl]

theorem chunkOutput_plus (v : String) : chunkOutput ["+" ++ v] = [v] := by
  unfold chunkOutput
  rw [List.filterMap]
  simp [strTake_one_cat "+" v rfl, strDrop_one_cat "+" v rfl]

theorem chunkOutput_minus (v : String) : chunkOutput ["-" ++ v] = [] := by
  unfold chunkOutput
  rw [List.filterMap]
  simp [strTake_one_cat "-" v rfl]

theorem chunkOldCount_space (v : String) : chunkOldCount [" " ++ v] = 1 := by
  simp [chunkOldCount, strTake_one_cat " " v rfl]

theorem chunkOldCount_plus (v : String) : chunkOldCount ["+" ++ v] = 0 := by
  simp [chunkOldCount, strTake_one_cat "+" v rfl]

theorem chunkOldCount_minus (v : String) : chunkOldCount ["-" ++ v] = 1 := by
  simp [chunkOldCount, strTake_one_cat "-" v rfl]

theorem drop_cons_head {l : List Edit} {i : Nat} {e : Edit} {rest : List Edit}
    (h : l.drop i = e :: rest) :
    l.getD i default = e ∧ l.drop (i+1) = rest ∧ i < l.length := by
  refine ⟨?_, ?_, ?_⟩
  · have h0 : (l.drop i)[0]? = some e := by rw [h]; simp
    rw [List.getElem?_drop] at h0
    simp only [Nat.add_zero] at h0
    simp [List.getD_eq_getElem?_getD, h0]
  · have := List.drop_drop 1 i l
    rw [h] at this
    simpa using this.symm
  · by_contra hlt
    push_neg at hlt
    have h2 : l.drop i = [] := List.drop_eq_nil_of_le hlt
    rw [h2] at h
    exact List.noConfusion h

theorem drop_eq_getD_cons {l : List String} {n : Nat} (h : n < l.length) :
    l.drop n = l.getD n "" :: l.drop (n+1) := by
  rw [List.drop_eq_getElem_cons h, List.getD_eq_getElem l "" h]

theorem take_succ_getD {l : List String} {n : Nat} (h : n < l.length) :
    l.take (n+1) = l.take n ++ [l.getD n ""] := by
  rw [List.take_succ, List.getElem?_eq_getElem h, List.getD_eq_getElem l "" h]
  rfl

theorem take_drop_shift {l : List String} {p p₀ : Nat} (hp : p < l.length)
    (h0 : p₀ ≤ p) :
    (l.take (p+1)).drop p₀ = (l.take p).drop p₀ ++ [l.getD p ""] := by
  rw [take_succ_getD hp, List.drop_append_of_le_length]
  rw [List.length_take]
  omega

theorem take_drop_last {l : List String} {p : Nat} (hp : p < l.length) :
    (l.take (p+1)).drop p = [l.getD p ""] := by
  rw [take_drop_shift hp le_rfl]
  have : (l.take p).drop p = [] := by
    apply List.drop_eq_nil_of_le
    rw [List.length_take]
    omega
  rw [this]
  rfl

theorem applyChunks_nil (old : List String) (pos : Nat) :
    applyChunks old pos [] = old.drop pos := rfl

theorem applyChunks_cons (old : List String) (pos : Nat) (ch : DiffChunk)
    (cs : List DiffChunk) :
    applyChunks old pos (ch :: cs) =
      (old.take ((ch.oldStart - 1).toNat)).drop pos ++ chunkOutput ch.lines ++
        applyChunks old ((ch.oldStart - 1).toNat + chunkOldCount ch.lines) cs := rfl

theorem groupGo_nil (edits : List Edit) (c : Nat) (i : Nat) (cur : DiffChunk)
    (acc : List DiffChunk) :
    groupGo edits c [] i cur acc = if cur.lines ≠ [] then acc ++ [cur] else acc := rfl

theorem groupGo_cons (edits : List Edit) (c : Nat) (e : Edit) (rest : List Edit)
    (i : Nat) (cur : DiffChunk) (acc : List DiffChunk) :
    groupGo edits c (e :: rest) i cur acc =
      if e.type ≠ EditType.unch ∨ i = 0 ∨ i = edits.length - 1 ∨
          isNearChange edits c i = true then
        groupGo edits c rest (i+1) (chunkAdd (chunkStart cur e) e) acc
      else if cur.lines ≠ [] then
        groupGo edits c rest (i+1) emptyChunk (acc ++ [cur])
      else groupGo edits c rest (i+1) cur acc := rfl

theorem chunkStart_of_ne (cur : DiffChunk) (e : Edit) (h : cur.oldStart ≠ -1) :
    chunkStart cur e = cur := if_neg h

theorem startAdd_empty_unch (p q : Nat) (v : String) :
    chunkAdd (chunkStart emptyChunk ⟨EditType.unch, (p : Int), (q : Int), v⟩)
        ⟨EditType.unch, (p : Int), (q : Int), v⟩ =
      ⟨(p : Int) + 1, 1, (q : Int) + 1, 1, [" " ++ v]⟩ := by
  unfold chunkStart emptyChunk
  rw [if_pos rfl, if_pos (by omega : ((p : Int)) ≠ -1),
    if_pos (by omega : ((q : Int)) ≠ -1)]
  rfl

theorem startAdd_empty_del (p : Nat) (v : String) :
    chunkAdd (chunkStart emptyChunk ⟨EditType.del, (p : Int), -1, v⟩)
        ⟨EditType.del, (p : Int), -1, v⟩ =
      ⟨(p : Int) + 1, 1, 0, 0, ["-" ++ v]⟩ := by
  unfold chunkStart emptyChunk
  rw [if_pos rfl, if_pos (by omega : ((p : Int)) ≠ -1),
    if_neg (by omega : ¬((-1 : Int) ≠ -1))]
  rfl

theorem startAdd_empty_ins (q : Nat) (v : String) :
    chunkAdd (chunkStart emptyChunk ⟨EditType.ins, -1, (q : Int), v⟩)
        ⟨EditType.ins, -1, (q : Int), v⟩ =
      ⟨0, 0, (q : Int) + 1, 1, ["+" ++ v]⟩ := by
  unfold chunkStart emptyChunk
  rw [if_pos rfl, if_neg (by omega : ¬((-1 : Int) ≠ -1)),
    if_pos (by omega : ((q : Int)) ≠ -1)]
  rfl

theorem startAdd_active_unch (cur : DiffChunk) (h : cur.oldStart ≠ -1)
    (p q : Int) (v : String) :
    chunkAdd (chunkStart cur ⟨EditType.unch, p, q, v⟩) ⟨EditType.unch, p, q, v⟩ =
      { cur with
          oldLength := cur.oldLength + 1
          newLength := cur.newLength + 1
          lines := cur.lines ++ [" " ++ v] } := by
  rw [chunkStart_of_ne cur _ h]
  rfl

theorem startAdd_active_del (cur : DiffChunk) (h : cur.oldStart ≠ -1)
    (p q : Int) (v : String) :
    chunkAdd (chunkStart cur ⟨EditType.del, p, q, v⟩) ⟨EditType.del, p, q, v⟩ =
      { cur with
          oldLength := cur.oldLength + 1
          lines := cur.lines ++ ["-" ++ v] } := by
  rw [chunkStart_of_ne cur _ h]
  rfl

theorem startAdd_active_ins (cur : DiffChunk) (h : cur.oldStart ≠ -1)
    (p q : Int) (v : String) :
    chunkAdd (chunkStart cur ⟨EditType.ins, p, q, v⟩) ⟨EditType.ins, p, q, v⟩ =
      { cur with
          newLength := cur.newLength + 1
          lines := cur.lines ++ ["+" ++ v] } := by
  rw [chunkStart_of_ne cur _ h]
  rfl

theorem groupGo_acc (edits : List Edit) (c : Nat) :
    ∀ (es : List Edit) (i : Nat) (cur : DiffChunk) (acc : List DiffChunk),
      groupGo edits c es i cur acc = acc ++ groupGo edits c es i cur [] := by
  intro es
  induction es with
  | nil =>
    intro i cur acc
    simp only [groupGo]
    split
    · rfl
    · simp
  | cons e rest ih =>
    intro i cur acc
    simp only [groupGo]
    by_cases hcond : e.type ≠ EditType.unch ∨ i = 0 ∨ i = edits.length - 1 ∨
        isNearChange edits c i = true
    · rw [if_pos hcond, if_pos hcond]
      exact ih _ _ _
    · rw [if_neg hcond, if_neg hcond]
      by_cases hl : cur.lines ≠ []
      · rw [if_pos hl, if_pos hl]
        rw [ih (i+1) emptyChunk (acc ++ [cur]), ih (i+1) emptyChunk ([] ++ [cur])]
        simp
      · rw [if_neg hl, if_neg hl]
        exact ih _ _ _

theorem editsOK_nil_lengths {a b : List String} {p q : Nat}
    (h : EditsOK a b [] p q) : p = a.length ∧ q = b.length := by
  cases h
  exact ⟨rfl, rfl⟩

theorem groupApply_master (a b : List String) (c : Nat) (hc : 1 ≤ c)
    (edits : List Edit) :
    ∀ (es : List Edit) (p q : Nat), EditsOK a b es p q →
      ∀ i : Nat, edits.drop i = es →
      ((((i = 0 ∧ p = 0) ∨ (1 ≤ i ∧
          ¬((edits.getD (i-1) default).type ≠ EditType.unch ∨ i - 1 = 0 ∨
            i - 1 = edits.length - 1 ∨ isNearChange edits c (i-1) = true))) →
        ∀ p₀, p₀ ≤ p →
          applyChunks a p₀ (groupGo edits c es i emptyChunk []) =
            (a.take p).drop p₀ ++ b.drop q) ∧
      (∀ cur : DiffChunk, cur.lines ≠ [] → 0 ≤ cur.oldStart →
          (cur.oldStart - 1).toNat + chunkOldCount cur.lines = p →
        ∀ p₀, p₀ ≤ (cur.oldStart - 1).toNat →
          applyChunks a p₀ (groupGo edits c es i cur []) =
            (a.take ((cur.oldStart - 1).toNat)).drop p₀ ++ chunkOutput cur.lines ++
              b.drop q)) := by
  intro es p q hed
  induction hed with
  | nil =>
    intro i _
    constructor
    · intro _ p₀ _
      rw [groupGo_nil, if_neg (by simp [emptyChunk]), applyChunks_nil,
        List.take_length, List.drop_length]
      simp
    · intro cur hl _ hcnt p₀ _
      rw [groupGo_nil, if_pos hl, List.nil_append, applyChunks_cons,
        applyChunks_nil, hcnt, List.drop_length, List.drop_length]
  | @unch es' p q h1 h2 h3 _ ih =>
    intro i hdrop
    obtain ⟨hgetD, hdrop', hilen⟩ := drop_cons_head hdrop
    by_cases hcond :
        (⟨EditType.unch, (p : Int), (q : Int), a.getD p ""⟩ : Edit).type ≠ EditType.unch ∨
          i = 0 ∨ i = edits.length - 1 ∨ isNearChange edits c i = true
    · constructor
      · intro _ p₀ hp₀
        rw [groupGo_cons, if_pos hcond, startAdd_empty_unch]
        have key := (ih (i+1) hdrop').2
          ⟨(p : Int) + 1, 1, (q : Int) + 1, 1, [" " ++ a.getD p ""]⟩
          (by simp)
          (by show (0:Int) ≤ (p : Int) + 1; omega)
          (by show (((p : Int) + 1) - 1).toNat + chunkOldCount [" " ++ a.getD p ""] = p + 1
              rw [chunkOldCount_space]; omega)
          p₀ (by show p₀ ≤ (((p : Int) + 1) - 1).toNat; omega)
        rw [key]
        show (a.take ((((p : Int) + 1) - 1).toNat)).drop p₀ ++
            chunkOutput [" " ++ a.getD p ""] ++ b.drop (q+1) =
          (a.take p).drop p₀ ++ b.drop q
        have hsp : (((p : Int) + 1) - 1).toNat = p := by omega
        rw [hsp, chunkOutput_space, h3, drop_eq_getD_cons h2]
        simp
      · intro cur hl hge hcnt p₀ hp₀
        have hne : cur.oldStart ≠ -1 := by omega
        rw [groupGo_cons, if_pos hcond, startAdd_active_unch cur hne]
        have key := (ih (i+1) hdrop').2
          ⟨cur.oldStart, cur.oldLength + 1, cur.newStart, cur.newLength + 1,
            cur.lines ++ [" " ++ a.getD p ""]⟩
          (by simp)
          (by show (0:Int) ≤ cur.oldStart; exact hge)
          (by show (cur.oldStart - 1).toNat +
                chunkOldCount (cur.lines ++ [" " ++ a.getD p ""]) = p + 1
              rw [chunkOldCount_append, chunkOldCount_space]; omega)
          p₀ (by show p₀ ≤ (cur.oldStart - 1).toNat; exact hp₀)
        rw [key]
        show (a.take ((cur.oldStart - 1).toNat)).drop p₀ ++
            chunkOutput (cur.lines ++ [" " ++ a.getD p ""]) ++ b.drop (q+1) =
          (a.take ((cur.oldStart - 1).toNat)).drop p₀ ++ chunkOutput cur.lines ++
            b.drop q
        rw [chunkOutput_append, chunkOutput_space, h3, drop_eq_getD_cons h2]
        simp
    · constructor
      · intro _ p₀ hp₀
        rw [groupGo_cons, if_neg hcond, if_neg (by simp [emptyChunk])]
        have hpre2 : 1 ≤ i + 1 ∧
            ¬((edits.getD ((i+1)-1) default).type ≠ EditType.unch ∨ (i+1) - 1 = 0 ∨
              (i+1) - 1 = edits.length - 1 ∨ isNearChange edits c ((i+1)-1) = true) := by
          refine ⟨by omega, ?_⟩
          simp only [Nat.add_sub_cancel, hgetD]
          exact hcond
        have key := (ih (i+1) hdrop').1 (Or.inr hpre2) p₀ (by omega)
        rw [key, take_drop_shift h1 hp₀, h3, drop_eq_getD_cons h2]
        simp
      · intro cur hl hge hcnt p₀ hp₀
        rw [groupGo_cons, if_neg hcond, if_pos hl,
          groupGo_acc edits c es' (i+1) emptyChunk ([] ++ [cur])]
        simp only [List.nil_append]
        rw [List.singleton_append, applyChunks_cons, hcnt]
        have hpre2 : 1 ≤ i + 1 ∧
            ¬((edits.getD ((i+1)-1) default).type ≠ EditType.unch ∨ (i+1) - 1 = 0 ∨
              (i+1) - 1 = edits.length - 1 ∨ isNearChange edits c ((i+1)-1) = true) := by
          refine ⟨by omega, ?_⟩
          simp only [Nat.add_sub_cancel, hgetD]
          exact hcond
        have key := (ih (i+1) hdrop').1 (Or.inr hpre2) p (by omega)
        rw [key, take_drop_last h1, h3, drop_eq_getD_cons h2]
        simp
  | @del es' p q h1 h2 _ ih =>
    intro i hdrop
    obtain ⟨hgetD, hdrop', hilen⟩ := drop_cons_head hdrop
    have hcond :
        (⟨EditType.del, (p : Int), -1, a.getD p ""⟩ : Edit).type ≠ EditType.unch ∨
          i = 0 ∨ i = edits.length - 1 ∨ isNearChange edits c i = true :=
      Or.inl (fun hh => EditType.noConfusion hh)
    constructor
    · intro _ p₀ hp₀
      rw [groupGo_cons, if_pos hcond, startAdd_empty_del]
      have key := (ih (i+1) hdrop').2
        ⟨(p : Int) + 1, 1, 0, 0, ["-" ++ a.getD p ""]⟩
        (by simp)
        (by show (0:Int) ≤ (p : Int) + 1; omega)
        (by show (((p : Int) + 1) - 1).toNat + chunkOldCount ["-" ++ a.getD p ""] = p + 1
            rw [chunkOldCount_minus]; omega)
        p₀ (by show p₀ ≤ (((p : Int) + 1) - 1).toNat; omega)
      rw [key]
      show (a.take ((((p : Int) + 1) - 1).toNat)).drop p₀ ++
          chunkOutput ["-" ++ a.getD p ""] ++ b.drop q =
        (a.take p).drop p₀ ++ b.drop q
      have hsp : (((p : Int) + 1) - 1).toNat = p := by omega
      rw [hsp, chunkOutput_minus]
      simp
    · intro cur hl hge hcnt p₀ hp₀
      have hne : cur.oldStart ≠ -1 := by omega
      rw [groupGo_cons, if_pos hcond, startAdd_active_del cur hne]
      have key := (ih (i+1) hdrop').2
        ⟨cur.oldStart, cur.oldLength + 1, cur.newStart, cur.newLength,
          cur.lines ++ ["-" ++ a.getD p ""]⟩
        (by simp)
        (by show (0:Int) ≤ cur.oldStart; exact hge)
        (by show (cur.oldStart - 1).toNat +
              chunkOldCount (cur.lines ++ ["-" ++ a.getD p ""]) = p + 1
            rw [chunkOldCount_append, chunkOldCount_minus]; omega)
        p₀ (by show p₀ ≤ (cur.oldStart - 1).toNat; exact hp₀)
      rw [key]
      show (a.take ((cur.oldStart - 1).toNat)).drop p₀ ++
          chunkOutput (cur.lines ++ ["-" ++ a.getD p ""]) ++ b.drop q =
        (a.take ((cur.oldStart - 1).toNat)).drop p₀ ++ chunkOutput cur.lines ++
          b.drop q
      rw [chunkOutput_append, chunkOutput_minus]
      simp
  | @ins es' p q h1 h2 _ ih =>
    intro i hdrop
    obtain ⟨hgetD, hdrop', hilen⟩ := drop_cons_head hdrop
    have hcond :
        (⟨EditType.ins, -1, (q : Int), b.getD q ""⟩ : Edit).type ≠ EditType.unch ∨
          i = 0 ∨ i = edits.length - 1 ∨ isNearChange edits c i = true :=
      Or.inl (fun hh => EditType.noConfusion hh)
    constructor
    · intro hpre p₀ hp₀
      rw [groupGo_cons, if_pos hcond, startAdd_empty_ins]
      have hp0 : p = 0 := by
        rcases hpre with ⟨_, hp0⟩ | ⟨hi1, hnc⟩
        · exact hp0
        · exfalso
          push_neg at hnc
          obtain ⟨_, _, _, hnearneg⟩ := hnc
          have hnear2 : isNearChange edits c (i-1) = false := by
            cases hval : isNearChange edits c (i-1) with
            | true => exact absurd hval hnearneg
            | false => rfl
          unfold isNearChange at hnear2
          rw [List.any_eq_false] at hnear2
          have hg := hnear2 i (List.mem_range.mpr hilen)
          apply hg
          simp only [Bool.and_eq_true, decide_eq_true_eq]
          exact ⟨⟨⟨by omega, by omega⟩, by omega⟩,
            by rw [hgetD]; exact fun hh => EditType.noConfusion hh⟩
      subst hp0
      have key := (ih (i+1) hdrop').2
        ⟨0, 0, (q : Int) + 1, 1, ["+" ++ b.getD q ""]⟩
        (by simp)
        (by show (0:Int) ≤ 0; omega)
        (by show (((0 : Int)) - 1).toNat + chunkOldCount ["+" ++ b.getD q ""] = 0
            rw [chunkOldCount_plus]; rfl)
        p₀ (by show p₀ ≤ (((0 : Int)) - 1).toNat; omega)
      rw [key]
      show (a.take ((((0 : Int)) - 1).toNat)).drop p₀ ++
          chunkOutput ["+" ++ b.getD q ""] ++ b.drop (q+1) =
        (a.take 0).drop p₀ ++ b.drop q
      have h00 : ((0 : Int) - 1).toNat = 0 := rfl
      rw [h00, chunkOutput_plus, drop_eq_getD_cons h2]
      simp
    · intro cur hl hge hcnt p₀ hp₀
      have hne : cur.oldStart ≠ -1 := by omega
      rw [groupGo_cons, if_pos hcond, startAdd_active_ins cur hne]
      have key := (ih (i+1) hdrop').2
        ⟨cur.oldStart, cur.oldLength, cur.newStart, cur.newLength + 1,
          cur.lines ++ ["+" ++ b.getD q ""]⟩
        (by simp)
        (by show (0:Int) ≤ cur.oldStart; exact hge)
        (by show (cur.oldStart - 1).toNat +
              chunkOldCount (cur.lines ++ ["+" ++ b.getD q ""]) = p
            rw [chunkOldCount_append, chunkOldCount_plus]; omega)
        p₀ (by show p₀ ≤ (cur.oldStart - 1).toNat; exact hp₀)
      rw [key]
      show (a.take ((cur.oldStart - 1).toNat)).drop p₀ ++
          chunkOutput (cur.lines ++ ["+" ++ b.getD q ""]) ++ b.drop (q+1) =
        (a.take ((cur.oldStart - 1).toNat)).drop p₀ ++ chunkOutput cur.lines ++
          b.drop q
      rw [chunkOutput_append, chunkOutput_plus, drop_eq_getD_cons h2]
      simp

/-- C3: applying all hunks produced by `diffContent A B c` to `A`'s line array
reconstructs `B`'s line array exactly, for any context size `c ≥ 1` (the
default used throughout the program is 3): the edit script and its grouping
into context hunks lose no insertion or deletion and preserve their order. -/
theorem diff_roundtrip (A B : String) (c : Nat) (hc : 1 ≤ c) :
    applyChunks (strLines A) 0 (diffContent A B c) = strLines B := by
  have hmain : ∀ (a b : List String) (edits : List Edit), EditsOK a b edits 0 0 →
      applyChunks a 0 (groupEditsIntoChunks edits c) = b := by
    intro a b edits hed
    unfold groupEditsIntoChunks
    by_cases hnil : edits = []
    · subst hnil
      rw [if_pos rfl]
      obtain ⟨ha, hb⟩ := editsOK_nil_lengths hed
      have ha2 : a = [] := List.eq_nil_of_length_eq_zero ha.symm
      have hb2 : b = [] := List.eq_nil_of_length_eq_zero hb.symm
      subst ha2
      subst hb2
      rfl
    · rw [if_neg hnil]
      have key := (groupApply_master a b c hc edits edits 0 0 hed 0 (by simp)).1
        (Or.inl ⟨rfl, rfl⟩) 0 (Nat.le_refl 0)
      rw [key]
      simp
  exact hmain (strLines A) (strLines B) _
    (convertToEdits_editsOK (strLines A) (strLines B))

theorem diff_roundtrip_witness :
    1 ≤ 3 ∧ applyChunks (strLines ("a\nb\nc\n")) 0
        (diffContent ("a\nb\nc\n") ("a\nx\nc\n") 3) = strLines ("a\nx\nc\n") :=
  ⟨by decide, diff_roundtrip ("a\nb\nc\n") ("a\nx\nc\n") 3 (by decide)⟩

end Kit
